import Mathlib

/-!
Verification of the SafeSwap escrow settlement engine.

This file gives a shallow embedding, in Lean 4, of the balance-ledger,
settlement-policy, escrow state-machine and bech32 address routines of the
repository (files `btcwalletclient_wif.py` and the main bot module), and
proves or refutes the specified properties about them.

Conventions of the embedding:
* Python integers are `ℤ` (or `ℕ` where the source value is a sum of
  non-negative satoshi amounts and every subtraction is guarded).
* Database balances, which the source stores as floating BTC amounts, are
  modelled as exact rationals `ℚ`; the float expressions `x * 0.99`,
  `x * 0.05` appearing in the source are modelled by the exact rationals
  `x * (99/100)`, `x * (5/100)`.
* `int(x * 0.95)` / `int(x * 0.50)` on a positive integer-valued `x` in the
  satoshi range is exact truncation, i.e. `19 * x / 20` resp. `x / 2` in
  integer division.
* Fallible operations return `Except`/`Option`; network and database
  effects are represented by the data they carry (UTXO lists, balances).
-/

namespace SafeSwap

/-! ### Data model: UTXOs, outputs, wallet errors (btcwalletclient_wif.py) -/

/-- An unspent output as fetched from the chain indexer: txid, vout, value
in satoshis. -/
structure UTXO where
  txid : String
  vout : ℕ
  value : ℕ
deriving DecidableEq, Repr

/-- `balance = sum(utxo['value'] for utxo in utxos)`. -/
def utxo_balance (utxos : List UTXO) : ℕ :=
  (utxos.map UTXO.value).sum

/-- The distinct failure results of the wallet-client send functions, one
constructor per source error message. -/
inductive WalletError where
  /-- source message: No UTXOs found -/
  | noUtxosFound
  /-- source message: Balance too low to cover transaction fees -/
  | balanceTooLowForFees
  /-- source message: Balance too low to send minimum amount -/
  | balanceTooLowMinimum
  /-- source message: Insufficient balance. Need N satoshis, have M satoshis -/
  | insufficientBalance (needed got : ℤ)
  /-- source message: Amount too low (minimum 546 satoshis) -/
  | amountTooLow
  /-- source message: Seller amount too low (minimum 546 satoshis) -/
  | sellerAmountTooLow
  /-- source message: Fee amount too low (minimum 546 satoshis) -/
  | feeAmountTooLow
deriving DecidableEq, Repr

/-- One output of a built transaction. -/
structure TxOutput where
  address : String
  value : ℤ
deriving DecidableEq, Repr

/-- Result of a successful single-destination send. -/
structure SendResult where
  outputs : List TxOutput
  amount_sent : ℤ
  fee : ℤ
deriving DecidableEq, Repr

/-- Result of a successful two-output split send. -/
structure SplitResult where
  outputs : List TxOutput
  seller_amount : ℤ
  fee_wallet_amount : ℤ
  transaction_fee : ℤ
deriving DecidableEq, Repr

/-- `FEE_WALLET_ADDRESS` from btcwalletclient_wif.py. -/
def FEE_WALLET_ADDRESS : String := "bc1q8mcfyyt0hdhsqvv4ly6czz52gyak5zaayw8qa5"

/-! ### SettlementPolicies (btcwalletclient_wif.py) -/

/-- `send_max_btc_auto` (lines 248-302): spend the whole balance minus a
capped fee to one destination.  The transaction is built and broadcast only
on the `.ok` branch; every `.error` is returned before any transaction is
assembled. -/
def send_max_btc_auto (utxos : List UTXO) (destination_address : String) :
    Except WalletError SendResult :=
  if utxos.isEmpty then .error .noUtxosFound
  else
    let balance : ℤ := utxo_balance utxos
    let transaction_fee := min 250 (balance - 546)
    if transaction_fee < 1 then .error .balanceTooLowForFees
    else
      let max_sendable := balance - transaction_fee
      if max_sendable < 546 then .error .balanceTooLowMinimum
      else .ok ⟨[⟨destination_address, max_sendable⟩], max_sendable, transaction_fee⟩

/-- Python `int()` on a rational: truncation toward zero. -/
def pyInt (q : ℚ) : ℤ :=
  if 0 ≤ q then ⌊q⌋ else ⌈q⌉

/-- `send_specific_btc_amount` (lines 304-367): send an exact BTC amount,
with change back to the source when the change clears the dust floor, and
otherwise folded into the fee.  Errors are returned before any transaction
is assembled. -/
def send_specific_btc_amount (utxos : List UTXO)
    (destination_address source_address : String) (amount_btc : ℚ) :
    Except WalletError SendResult :=
  if utxos.isEmpty then .error .noUtxosFound
  else
    let balance : ℤ := utxo_balance utxos
    let amount_to_send_satoshis := pyInt (amount_btc * 100000000)
    let total_needed := amount_to_send_satoshis + 250
    if balance < total_needed then .error (.insufficientBalance total_needed balance)
    else if amount_to_send_satoshis < 546 then .error .amountTooLow
    else
      let change_amount := balance - amount_to_send_satoshis - 250
      if 546 ≤ change_amount then
        .ok ⟨[⟨destination_address, amount_to_send_satoshis⟩,
              ⟨source_address, change_amount⟩],
             amount_to_send_satoshis, 250⟩
      else
        .ok ⟨[⟨destination_address, amount_to_send_satoshis⟩],
             amount_to_send_satoshis, 250 + change_amount⟩

/-- `send_batch_95_5_split` (lines 369-439): pay 95% of the spendable
balance to the seller and the rest to the fixed fee wallet.
`int(max_sendable * 0.95)` is `19 * max_sendable / 20` (exact for
satoshi-range values). -/
def send_batch_95_5_split (utxos : List UTXO) (seller_address : String) :
    Except WalletError SplitResult :=
  if utxos.isEmpty then .error .noUtxosFound
  else
    let balance : ℤ := utxo_balance utxos
    let transaction_fee := min 250 (balance - 1092)
    if transaction_fee < 1 then .error .balanceTooLowForFees
    else
      let max_sendable := balance - transaction_fee
      if max_sendable < 1092 then .error .balanceTooLowMinimum
      else
        let seller_amount := 19 * max_sendable / 20
        let fee_amount := max_sendable - seller_amount
        if seller_amount < 546 then .error .sellerAmountTooLow
        else if fee_amount < 546 then .error .feeAmountTooLow
        else .ok ⟨[⟨seller_address, seller_amount⟩, ⟨FEE_WALLET_ADDRESS, fee_amount⟩],
                  seller_amount, fee_amount, transaction_fee⟩

/-- `send_dispute_refund_50_50` (lines 441-511): identical structure with a
50/50 split; `int(max_sendable * 0.50)` is `max_sendable / 2`. -/
def send_dispute_refund_50_50 (utxos : List UTXO) (seller_address : String) :
    Except WalletError SplitResult :=
  if utxos.isEmpty then .error .noUtxosFound
  else
    let balance : ℤ := utxo_balance utxos
    let transaction_fee := min 250 (balance - 1092)
    if transaction_fee < 1 then .error .balanceTooLowForFees
    else
      let max_sendable := balance - transaction_fee
      if max_sendable < 1092 then .error .balanceTooLowMinimum
      else
        let seller_amount := max_sendable / 2
        let fee_amount := max_sendable - seller_amount
        if seller_amount < 546 then .error .sellerAmountTooLow
        else if fee_amount < 546 then .error .feeAmountTooLow
        else .ok ⟨[⟨seller_address, seller_amount⟩, ⟨FEE_WALLET_ADDRESS, fee_amount⟩],
                  seller_amount, fee_amount, transaction_fee⟩

/-- Claim-side formula (spec wording for `split_95_5`): fee = min(cap,
balance − 2·dust). -/
def split95_claim_fee (B : ℤ) : ℤ := min 250 (B - 2 * 546)

/-- Claim-side formula: remainder = balance − fee. -/
def split95_claim_remainder (B : ℤ) : ℤ := B - split95_claim_fee B

/-- Claim-side formula: seller_amount = floor(0.95 · remainder). -/
def split95_claim_seller (B : ℤ) : ℤ :=
  ⌊(95 : ℚ) / 100 * (split95_claim_remainder B : ℚ)⌋

/-- Claim-side formula: fee_wallet_amount = remainder − seller_amount. -/
def split95_claim_fee_wallet (B : ℤ) : ℤ :=
  split95_claim_remainder B - split95_claim_seller B

/-! ### Canonical signatures (btcwalletclient_wif.py, lines 159-165 and 223-230) -/

/-- The secp256k1 group order used by the `ecdsa` library. -/
def SECP256K1_ORDER : ℕ :=
  0xFFFFFFFFFFFFFFFFFFFFFFFFFFFFFFFEBAAEDCE6AF48A03BBFD25E8CD0364141

/-- `make_canonical_signature`: a DER signature is decoded to `(r, s)`; if
`s > order // 2` then `s` is replaced by `order - s`, `r` unchanged. -/
def make_canonical_signature (sig : ℕ × ℕ) : ℕ × ℕ :=
  let half_order := SECP256K1_ORDER / 2
  if half_order < sig.2 then (sig.1, SECP256K1_ORDER - sig.2) else sig

/-- One witness stack entry as assembled by `build_segwit_transaction`:
the canonicalised signature with the appended sighash-type byte `0x01`,
followed by the public key. -/
structure WitnessItem where
  sig_r : ℕ
  sig_s : ℕ
  sighash_type : ℕ
  pubkey : List ℕ
deriving DecidableEq, Repr

/-- The witness-building loop of `build_segwit_transaction` (lines
192-230): for each input, the raw ECDSA signature over the BIP143 digest is
canonicalised and placed with sighash byte 1 and the public key. -/
def build_segwit_witnesses (raw_sigs : List (ℕ × ℕ)) (pubkey : List ℕ) :
    List WitnessItem :=
  raw_sigs.map fun rs =>
    let c := make_canonical_signature rs
    ⟨c.1, c.2, 1, pubkey⟩

/-! ### BalanceLedger mutations (main module) -/

/-- Result of `subtract_wallet_balance` (lines 1339-1384). -/
inductive SubtractResult where
  | walletNotFound
  | ok (old_balance new_balance : ℚ)
deriving DecidableEq, Repr

/-- `subtract_wallet_balance`: reads the wallet row and writes
`old - amount` back.  The insufficiency check in the source is commented
out ("Balance check removed - allow transactions regardless of balance"),
so the subtraction is unconditional. -/
def subtract_wallet_balance (balance : Option ℚ) (amount : ℚ) :
    SubtractResult × Option ℚ :=
  match balance with
  | none => (.walletNotFound, none)
  | some old => (.ok old (old - amount), some (old - amount))

/-- The accept-branch debit of `transaction_callback` (lines 3296-3314):
the buyer's balance is checked against the deal amount before
`subtract_wallet_balance` is invoked; `none` models the insufficient-balance
rejection. -/
def accept_transaction_debit (buyer_balance amount : ℚ) : Option ℚ :=
  if buyer_balance < amount then none else some (buyer_balance - amount)

/-- The full-deduction branch of deal creation (lines 2858-2869), reached
only under the dispatch guard `current_balance >= total`; `none` models the
other dispatch branches. -/
def create_full_deduction (current_balance total : ℚ) : Option ℚ :=
  if total ≤ current_balance then some (current_balance - total) else none

/-! ### EscrowStateMachine: decline / cancel (main module, transaction_callback) -/

/-- The deal fields used by the decline and cancel branches. -/
structure EscrowTx where
  seller_id : ℕ
  buyer_id : ℕ
  initiator_id : ℕ
  amount : ℚ
  deducted_amount : ℚ
  status : String
  wallet_id : String
deriving DecidableEq, Repr

/-- A wallet store: wallet id to (confirmed balance, pending balance). -/
def WalletStore : Type := String → Option (ℚ × ℚ)

/-- The `decline_transaction_` branch (lines 3469-3517): buyer-only,
PENDING-only; sets CANCELLED, then adds the deal `amount` to the recorded
funding wallet's confirmed balance and subtracts the same `amount` from
that wallet's pending balance.  A missing wallet row leaves balances
untouched (the status update has already been committed). -/
def decline_transaction (tx : EscrowTx) (actor : ℕ) (wallets : WalletStore) :
    EscrowTx × WalletStore :=
  if actor ≠ tx.buyer_id then (tx, wallets)
  else if tx.status ≠ "PENDING" then (tx, wallets)
  else
    let tx1 := { tx with status := "CANCELLED" }
    match wallets tx.wallet_id with
    | none => (tx1, wallets)
    | some (bal, pend) =>
      (tx1, fun w =>
        if w = tx.wallet_id then some (bal + tx.amount, pend - tx.amount)
        else wallets w)

/-- The `cancel_transaction_` branch (lines 3599-3649): initiator-only,
PENDING-only; sets CANCELLED, then adds `deducted_amount` to the funding
wallet's confirmed balance and subtracts it from that wallet's pending
balance. -/
def cancel_transaction (tx : EscrowTx) (actor : ℕ) (wallets : WalletStore) :
    EscrowTx × WalletStore :=
  if actor ≠ tx.initiator_id then (tx, wallets)
  else if tx.status ≠ "PENDING" then (tx, wallets)
  else
    let tx1 := { tx with status := "CANCELLED" }
    match wallets tx.wallet_id with
    | none => (tx1, wallets)
    | some (bal, pend) =>
      (tx1, fun w =>
        if w = tx.wallet_id then
          some (bal + tx.deducted_amount, pend - tx.deducted_amount)
        else wallets w)

/-! ### EscrowStateMachine: release (main module, release_callback) -/

/-- Context read from the transaction row and environment by the
`release_` branch of `release_callback`. -/
structure ReleaseCtx where
  user_id : ℕ
  buyer_id : ℕ
  status : String
  /-- transaction `amount` column, BTC. -/
  amount : ℚ
  /-- an intermediary (escrow) wallet id is recorded. -/
  has_intermediary : Bool
  /-- `get_cached_wallet_balance` of the intermediary address. -/
  cached_balance : Option ℚ
  seller_has_wallet : Bool
deriving DecidableEq, Repr

/-- Outcome of the release attempt. -/
inductive ReleaseOutcome where
  | notBuyer
  | expired
  | badStatus (s : String)
  /-- rejected: balance below the 99% threshold; carries the reported
  shortfall `threshold - balance`. -/
  | underfunded (deficit : ℚ)
  | noSellerWallet
  | splitFailed (e : WalletError)
  | completed (r : SplitResult)

/-- The `release_` branch of `release_callback` (lines 4327-4461), BTC
path: buyer-only; EXPIRED and non-PENDING rejected; if an intermediary
wallet exists and a cached balance is available, the balance is compared
against `amount * 0.99` and a shortfall is reported when below; otherwise
the funds move by `send_batch_95_5_split` (via `send_btc_to_seller`) and
the deal becomes COMPLETED on success.  Returns (outcome, final status). -/
def release_callback (ctx : ReleaseCtx) (escrow_utxos : List UTXO)
    (seller_address : String) : ReleaseOutcome × String :=
  if ctx.buyer_id ≠ ctx.user_id then (.notBuyer, ctx.status)
  else if ctx.status = "EXPIRED" then (.expired, ctx.status)
  else if ctx.status ≠ "PENDING" then (.badStatus ctx.status, ctx.status)
  else
    let proceed : ReleaseOutcome × String :=
      if ¬ ctx.seller_has_wallet then (.noSellerWallet, ctx.status)
      else
        match send_batch_95_5_split escrow_utxos seller_address with
        | .ok r => (.completed r, "COMPLETED")
        | .error e => (.splitFailed e, ctx.status)
    match ctx.has_intermediary, ctx.cached_balance with
    | true, some balance_btc =>
      let threshold_99 := ctx.amount * (99 / 100)
      if balance_btc < threshold_99 then
        (.underfunded (threshold_99 - balance_btc), ctx.status)
      else proceed
    | _, _ => proceed

/-! ### Dispute resolution (main module, resolve_dispute) -/

/-- `resolve_dispute` (lines 1773-1840), reduced to its fund-moving and
status effect: on `REFUNDED` for a BTC deal the escrow wallet is emptied by
`send_dispute_refund_50_50` (via `refund_btc_to_buyer`) and the status
becomes the resolution; on refund failure nothing is committed (`none`);
every other resolution only updates the status. -/
def resolve_dispute (resolution : String) (crypto_type : String)
    (escrow_utxos : List UTXO) (seller_address : String) :
    Option (String × List TxOutput) :=
  if resolution = "REFUNDED" ∧ crypto_type = "BTC" then
    match send_dispute_refund_50_50 escrow_utxos seller_address with
    | .ok r => some (resolution, r.outputs)
    | .error _ => none
  else some (resolution, [])

/-! ### ReconciliationMonitor: buyer auto-forwarding (main module) -/

/-- The forwarding decision of one monitor cycle. -/
inductive ForwardAction where
  | skip
  | sendMax
  | sendExact (amount_btc : ℚ)
deriving DecidableEq, Repr

/-- The per-buyer decision of `monitor_buyer_wallets_callback` (lines
5656-5680): skip at or below 250 sat; `send_max_btc_auto` when the on-chain
balance (in BTC) is at most the transaction `amount`; otherwise
`send_specific_btc_amount` for that amount. -/
def monitor_buyer_forward_decision (balance_satoshis : ℕ)
    (transaction_amount : ℚ) : ForwardAction :=
  if balance_satoshis ≤ 250 then .skip
  else if (balance_satoshis : ℚ) / 100000000 ≤ transaction_amount then .sendMax
  else .sendExact transaction_amount

/-- The ledger update after a successful auto-transfer (lines 5682-5710):
debit the buyer wallet, credit the escrow wallet by the same amount, mark
the deal `auto_transferred`. -/
def apply_auto_transfer (buyer_balance escrow_balance amount_sent : ℚ) :
    ℚ × ℚ × Bool :=
  (buyer_balance - amount_sent, escrow_balance + amount_sent, true)

/-! ### KeyCodec: bech32 (btcwalletclient_wif.py, lines 12-117) -/

/-- The bech32 alphabet, `"qpzry9x8gf2tvdw0s3jn54khce6mua7l"`. -/
def bech32_charset : List Char :=
  ['q', 'p', 'z', 'r', 'y', '9', 'x', '8', 'g', 'f', '2', 't', 'v', 'd', 'w', '0',
   's', '3', 'j', 'n', '5', '4', 'k', 'h', 'c', 'e', '6', 'm', 'u', 'a', '7', 'l']

/-- The generator constants of `bech32_polymod`. -/
def bech32_gen : List ℕ :=
  [0x3b6a57b2, 0x26508e6d, 0x1ea119fa, 0x3d4233dd, 0x2a1462b3]

/-- One iteration of the `bech32_polymod` loop. -/
def bech32_polymod_step (chk value : ℕ) : ℕ :=
  let b := chk >>> 25
  let chk1 := ((chk &&& 0x1ffffff) <<< 5) ^^^ value
  (List.range 5).foldl
    (fun c i => if (b >>> i) &&& 1 = 1 then c ^^^ bech32_gen.getD i 0 else c) chk1

/-- `bech32_polymod` (lines 34-42). -/
def bech32_polymod (values : List ℕ) : ℕ :=
  values.foldl bech32_polymod_step 1

/-- `bech32_hrp_expand` (lines 31-32). -/
def bech32_hrp_expand (hrp : List Char) : List ℕ :=
  hrp.map (fun c => c.toNat >>> 5) ++ [0] ++ hrp.map (fun c => c.toNat &&& 31)

/-- `bech32_verify_checksum` (lines 28-29). -/
def bech32_verify_checksum (hrp : List Char) (data : List ℕ) : Bool :=
  bech32_polymod (bech32_hrp_expand hrp ++ data) == 1

/-- `bech32_create_checksum` (lines 114-117). -/
def bech32_create_checksum (hrp : List Char) (data : List ℕ) : List ℕ :=
  let values := bech32_hrp_expand hrp ++ data
  let pm := bech32_polymod (values ++ [0, 0, 0, 0, 0, 0]) ^^^ 1
  (List.range 6).map fun i => (pm >>> (5 * (5 - i))) &&& 31

/-- The inner `while bits >= tobits` loop of `convertbits`: emits groups
from the high end of `acc` and returns them with the final `bits`. -/
def convert_emit (tobits maxv acc bits : ℕ) : List ℕ × ℕ :=
  if _h : 0 < tobits ∧ tobits ≤ bits then
    let bits1 := bits - tobits
    let rest := convert_emit tobits maxv acc bits1
    (((acc >>> bits1) &&& maxv) :: rest.1, rest.2)
  else ([], bits)
termination_by bits
decreasing_by omega

/-- The body of the `for value in data` loop of `convertbits`; `none` is
the early `return None` on an out-of-range value. -/
def convert_step (frombits tobits maxv max_acc : ℕ)
    (st : Option (ℕ × ℕ × List ℕ)) (value : ℕ) : Option (ℕ × ℕ × List ℕ) :=
  match st with
  | none => none
  | some (acc, bits, ret) =>
    if value >>> frombits ≠ 0 then none
    else
      let acc1 := ((acc <<< frombits) ||| value) &&& max_acc
      let e := convert_emit tobits maxv acc1 (bits + frombits)
      some (acc1, e.2, ret ++ e.1)

/-- `convertbits` (lines 44-63). -/
def convertbits (data : List ℕ) (frombits tobits : ℕ) (pad : Bool) :
    Option (List ℕ) :=
  let maxv := (1 <<< tobits) - 1
  let max_acc := (1 <<< (frombits + tobits - 1)) - 1
  match data.foldl (convert_step frombits tobits maxv max_acc) (some (0, 0, [])) with
  | none => none
  | some (acc, bits, ret) =>
    if pad then
      if bits ≠ 0 then some (ret ++ [(acc <<< (tobits - bits)) &&& maxv])
      else some ret
    else if frombits ≤ bits ∨ ((acc <<< (tobits - bits)) &&& maxv) ≠ 0 then none
    else some ret

/-- Python `str.rfind`: index of the last occurrence, if any. -/
def rfind_char (l : List Char) (c : Char) : Option ℕ :=
  match l with
  | [] => none
  | x :: xs =>
    match rfind_char xs c with
    | some i => some (i + 1)
    | none => if x = c then some 0 else none

/-- `bech32_decode` (lines 12-26): mixed-case rejection, position of the
last `1` separator, length bounds, alphabet check, checksum verification;
returns the hrp and the data part without its 6 checksum values. -/
def bech32_decode (bech : List Char) : Option (List Char × List ℕ) :=
  if bech.map Char.toLower ≠ bech ∧ bech.map Char.toUpper ≠ bech then none
  else
    let b := bech.map Char.toLower
    match rfind_char b '1' with
    | none => none
    | some pos =>
      if pos < 1 ∨ pos + 7 > b.length ∨ b.length > 90 then none
      else if ¬ (b.drop (pos + 1)).all (fun x => decide (x ∈ bech32_charset)) then
        none
      else
        let hrp := b.take pos
        let data := (b.drop (pos + 1)).map fun x => bech32_charset.indexOf x
        if bech32_verify_checksum hrp data then
          some (hrp, data.take (data.length - 6))
        else none

/-- `decode_bech32_address` (lines 65-74). -/
def decode_bech32_address (address : List Char) : Option (List ℕ) :=
  match bech32_decode address with
  | none => none
  | some (_, data) =>
    match convertbits (data.drop 1) 5 8 false with
    | none => none
    | some decoded =>
      if decoded.length < 2 ∨ 40 < decoded.length then none
      else if 16 < data.headD 0 then none
      else some decoded

/-- `public_key_to_bech32_address` (lines 94-112), parametrised by the
HASH160 (`ripemd160 ∘ sha256`) function of the hashlib environment: the
20-byte witness program is converted to 5-bit groups, prefixed with the
witness version 0, checksummed, and rendered over the bech32 alphabet
after the `"bc" + "1"` prefix. -/
def public_key_to_bech32_address (hash160 : List ℕ → List ℕ)
    (public_key_bytes : List ℕ) : Option (List Char) :=
  let witness_program := hash160 public_key_bytes
  match convertbits witness_program 8 5 true with
  | none => none
  | some five_bit_data =>
    let hrp : List Char := ['b', 'c']
    let data := 0 :: five_bit_data
    let checksum := bech32_create_checksum hrp data
    let combined := data ++ checksum
    some (hrp ++ ['1'] ++ combined.map fun d => bech32_charset.getD d ' ')

/-- Big-endian value of a list of `k`-bit groups (proof-side measure for
the `convertbits` round trip). -/
def bits_value (k : ℕ) (l : List ℕ) : ℕ :=
  l.foldl (fun n v => n * 2 ^ k + v) 0

/-! ## Theorems -/

/-! ### C4: send-max arithmetic -/

/-- C4, counterexample to the claim as stated: the claim quantifies over
every UTXO set, but for the empty set (balance 0, for which the claimed
failure condition `fee < 1` holds) `send_max_btc_auto` fails with the
distinct no-UTXOs error, not with an insufficient-funds error. -/
theorem send_max_btc_auto_empty_counterexample :
    send_max_btc_auto [] "bc1qdest" = .error .noUtxosFound ∧
    min 250 ((utxo_balance [] : ℤ) - 546) < 1 ∧
    WalletError.noUtxosFound ≠ .balanceTooLowForFees ∧
    WalletError.noUtxosFound ≠ .balanceTooLowMinimum := by
  refine ⟨rfl, by norm_num [utxo_balance], by decide, by decide⟩

/-- C4 (amended to non-empty UTXO sets): for every non-empty UTXO set with
value sum `B`, send-max computes `fee = min(250, B - 546)` and
`amount = B - fee`, so `amount + fee = B`, building a single-output
transaction only in that case; and it fails (with an insufficient-funds
error) exactly when the resulting amount would be below the 546-satoshi
dust floor or the fee below 1 satoshi. -/
theorem send_max_btc_auto_spec (utxos : List UTXO) (dest : String)
    (hne : utxos ≠ []) :
    (∀ r, send_max_btc_auto utxos dest = .ok r →
      r.fee = min 250 ((utxo_balance utxos : ℤ) - 546) ∧
      r.amount_sent = (utxo_balance utxos : ℤ) - r.fee ∧
      r.amount_sent + r.fee = (utxo_balance utxos : ℤ) ∧
      546 ≤ r.amount_sent ∧ 1 ≤ r.fee ∧
      r.outputs = [⟨dest, r.amount_sent⟩]) ∧
    ((∃ e, send_max_btc_auto utxos dest = .error e) ↔
      ((utxo_balance utxos : ℤ) - min 250 ((utxo_balance utxos : ℤ) - 546) < 546 ∨
        min 250 ((utxo_balance utxos : ℤ) - 546) < 1)) := by
  have hni : utxos.isEmpty = false := by
    cases utxos with
    | nil => exact absurd rfl hne
    | cons a as => rfl
  unfold send_max_btc_auto
  rw [hni]
  simp only [Bool.false_eq_true, if_false]
  split_ifs with h1 h2
  · exact ⟨fun r hr => by simp at hr, by
      refine ⟨fun _ => ?_, fun _ => ⟨.balanceTooLowForFees, rfl⟩⟩
      omega⟩
  · exact ⟨fun r hr => by simp at hr, by
      refine ⟨fun _ => ?_, fun _ => ⟨.balanceTooLowMinimum, rfl⟩⟩
      omega⟩
  · refine ⟨fun r hr => ?_, by
      constructor
      · rintro ⟨e, he⟩
        simp at he
      · intro hcond
        omega⟩
    have hr2 : r = ⟨[⟨dest, (utxo_balance utxos : ℤ) - min 250 ((utxo_balance utxos : ℤ) - 546)⟩],
        (utxo_balance utxos : ℤ) - min 250 ((utxo_balance utxos : ℤ) - 546),
        min 250 ((utxo_balance utxos : ℤ) - 546)⟩ := by
      cases hr; rfl
    subst hr2
    refine ⟨rfl, rfl, by dsimp only; ring, by dsimp only; omega, by dsimp only; omega, rfl⟩

/-- C4 witness: a concrete non-empty UTXO set (single 1000-sat output)
exercising the amended theorem; the success branch yields amount 750 and
fee 250. -/
theorem send_max_btc_auto_spec_witness :
    (⟨[⟨"d", 750⟩], 750, 250⟩ : SendResult).fee =
        min 250 ((utxo_balance [⟨"t", 0, 1000⟩] : ℤ) - 546) ∧
    (⟨[⟨"d", 750⟩], 750, 250⟩ : SendResult).amount_sent =
        (utxo_balance [⟨"t", 0, 1000⟩] : ℤ) -
          (⟨[⟨"d", 750⟩], 750, 250⟩ : SendResult).fee ∧
    (⟨[⟨"d", 750⟩], 750, 250⟩ : SendResult).amount_sent +
        (⟨[⟨"d", 750⟩], 750, 250⟩ : SendResult).fee =
        (utxo_balance [⟨"t", 0, 1000⟩] : ℤ) ∧
    546 ≤ (⟨[⟨"d", 750⟩], 750, 250⟩ : SendResult).amount_sent ∧
    1 ≤ (⟨[⟨"d", 750⟩], 750, 250⟩ : SendResult).fee ∧
    (⟨[⟨"d", 750⟩], 750, 250⟩ : SendResult).outputs = [⟨"d", 750⟩] :=
  (send_max_btc_auto_spec [⟨"t", 0, 1000⟩] "d" (by simp)).1 _ rfl

/-! ### C5: 95/5 split arithmetic -/

/-- floor(0.95·x) on an integer is integer division 19·x/20. -/
theorem floor_ratio_95 (x : ℤ) : ⌊(95 : ℚ) / 100 * (x : ℚ)⌋ = 19 * x / 20 := by
  have h1 : (95 : ℚ) / 100 * (x : ℚ) = ((19 * x : ℤ) : ℚ) / ((20 : ℕ) : ℚ) := by
    push_cast; ring
  rw [h1, Rat.floor_intCast_div_natCast]
  norm_num

/-- The claim-side seller amount as an integer division. -/
theorem split95_claim_seller_eq (B : ℤ) :
    split95_claim_seller B = 19 * split95_claim_remainder B / 20 := by
  unfold split95_claim_seller
  rw [floor_ratio_95]

/-- C5: for every realisable balance `B` (a non-empty UTXO set summing to
`B`), the 95/5 split computes `network_fee = min(250, B - 2*546)`,
`remainder = B - network_fee`, `seller_amount = floor(0.95*remainder)` and
`fee_wallet_amount = remainder - seller_amount`, so that
`seller_amount + fee_wallet_amount + network_fee = B`; and it fails with an
insufficient-funds error exactly when one of the two outputs so computed
would fall below 546 satoshis. -/
theorem send_batch_95_5_split_spec (utxos : List UTXO) (seller : String)
    (hne : utxos ≠ []) :
    (∀ r, send_batch_95_5_split utxos seller = .ok r →
      r.transaction_fee = min 250 ((utxo_balance utxos : ℤ) - 2 * 546) ∧
      r.seller_amount =
        ⌊(95 : ℚ) / 100 * (((utxo_balance utxos : ℤ) - r.transaction_fee : ℤ) : ℚ)⌋ ∧
      r.fee_wallet_amount =
        ((utxo_balance utxos : ℤ) - r.transaction_fee) - r.seller_amount ∧
      r.seller_amount + r.fee_wallet_amount + r.transaction_fee =
        (utxo_balance utxos : ℤ) ∧
      546 ≤ r.seller_amount ∧ 546 ≤ r.fee_wallet_amount ∧
      r.outputs = [⟨seller, r.seller_amount⟩, ⟨FEE_WALLET_ADDRESS, r.fee_wallet_amount⟩]) ∧
    ((∃ e, send_batch_95_5_split utxos seller = .error e) ↔
      (split95_claim_seller (utxo_balance utxos) < 546 ∨
        split95_claim_fee_wallet (utxo_balance utxos) < 546)) := by
  have hni : utxos.isEmpty = false := by
    cases utxos with
    | nil => exact absurd rfl hne
    | cons a as => rfl
  have hB : (0 : ℤ) ≤ (utxo_balance utxos : ℤ) := Int.natCast_nonneg _
  have hcs : split95_claim_seller (utxo_balance utxos) =
      19 * ((utxo_balance utxos : ℤ) - min 250 ((utxo_balance utxos : ℤ) - 2 * 546)) / 20 := by
    rw [split95_claim_seller_eq]
    simp only [split95_claim_remainder, split95_claim_fee]
  unfold send_batch_95_5_split
  rw [hni]
  simp only [Bool.false_eq_true, if_false,
    split95_claim_fee_wallet, split95_claim_remainder, split95_claim_fee]
  simp only [show ((2 : ℤ) * 546) = 1092 from by norm_num] at hcs ⊢
  rcases le_or_lt 250 ((utxo_balance utxos : ℤ) - 1092) with hm | hm
  case inl =>
    rw [min_eq_left hm] at hcs ⊢
    split_ifs with h1 h2 h3 h4
    · exact absurd h1 (by omega)
    · exact absurd h2 (by omega)
    · exact absurd h3 (by omega)
    · refine ⟨fun r hr => by simp at hr,
        ⟨fun _ => Or.inr (by omega), fun _ => ⟨.feeAmountTooLow, rfl⟩⟩⟩
    · refine ⟨fun r hr => ?_, ?_⟩
      · have hr2 : r = ⟨[⟨seller, 19 * ((utxo_balance utxos : ℤ) - 250) / 20⟩,
            ⟨FEE_WALLET_ADDRESS, ((utxo_balance utxos : ℤ) - 250) -
              19 * ((utxo_balance utxos : ℤ) - 250) / 20⟩],
            19 * ((utxo_balance utxos : ℤ) - 250) / 20,
            ((utxo_balance utxos : ℤ) - 250) -
              19 * ((utxo_balance utxos : ℤ) - 250) / 20, 250⟩ := by
          cases hr; rfl
        subst hr2
        refine ⟨rfl, ?_, rfl, by dsimp only; omega,
          by dsimp only; omega, by dsimp only; omega, rfl⟩
        dsimp only
        rw [floor_ratio_95]
      · exact ⟨fun h => by obtain ⟨e, he⟩ := h; simp at he, fun hcond => by omega⟩
  case inr =>
    rw [min_eq_right (le_of_lt hm)] at hcs ⊢
    split_ifs with h1 h2 h3 h4
    · exact ⟨fun r hr => by simp at hr,
        ⟨fun _ => Or.inr (by omega), fun _ => ⟨.balanceTooLowForFees, rfl⟩⟩⟩
    · exact absurd h2 (by omega)
    · exact absurd h3 (by omega)
    · refine ⟨fun r hr => by simp at hr,
        ⟨fun _ => Or.inr (by omega), fun _ => ⟨.feeAmountTooLow, rfl⟩⟩⟩
    · refine ⟨fun r hr => ?_, ?_⟩
      · have hr2 : r = ⟨[⟨seller, 19 * ((utxo_balance utxos : ℤ) -
              ((utxo_balance utxos : ℤ) - 1092)) / 20⟩,
            ⟨FEE_WALLET_ADDRESS, ((utxo_balance utxos : ℤ) -
                ((utxo_balance utxos : ℤ) - 1092)) -
              19 * ((utxo_balance utxos : ℤ) - ((utxo_balance utxos : ℤ) - 1092)) / 20⟩],
            19 * ((utxo_balance utxos : ℤ) - ((utxo_balance utxos : ℤ) - 1092)) / 20,
            ((utxo_balance utxos : ℤ) - ((utxo_balance utxos : ℤ) - 1092)) -
              19 * ((utxo_balance utxos : ℤ) - ((utxo_balance utxos : ℤ) - 1092)) / 20,
            (utxo_balance utxos : ℤ) - 1092⟩ := by
          cases hr; rfl
        subst hr2
        refine ⟨rfl, ?_, rfl, by dsimp only; omega,
          by dsimp only; omega, by dsimp only; omega, rfl⟩
        dsimp only
        rw [floor_ratio_95]
      · exact ⟨fun h => by obtain ⟨e, he⟩ := h; simp at he, fun hcond => by omega⟩

/-- C5 witness: a concrete 100000-sat escrow balance; the split succeeds
with seller amount 94762, fee-wallet amount 4988 and network fee 250. -/
theorem send_batch_95_5_split_spec_witness :
    (⟨[⟨"s", 94762⟩, ⟨FEE_WALLET_ADDRESS, 4988⟩], 94762, 4988, 250⟩ : SplitResult).transaction_fee =
        min 250 ((utxo_balance [⟨"t", 0, 100000⟩] : ℤ) - 2 * 546) ∧
    (⟨[⟨"s", 94762⟩, ⟨FEE_WALLET_ADDRESS, 4988⟩], 94762, 4988, 250⟩ : SplitResult).seller_amount =
        ⌊(95 : ℚ) / 100 * (((utxo_balance [⟨"t", 0, 100000⟩] : ℤ) -
          (⟨[⟨"s", 94762⟩, ⟨FEE_WALLET_ADDRESS, 4988⟩], 94762, 4988, 250⟩ : SplitResult).transaction_fee : ℤ) : ℚ)⌋ ∧
    (⟨[⟨"s", 94762⟩, ⟨FEE_WALLET_ADDRESS, 4988⟩], 94762, 4988, 250⟩ : SplitResult).fee_wallet_amount =
        ((utxo_balance [⟨"t", 0, 100000⟩] : ℤ) -
          (⟨[⟨"s", 94762⟩, ⟨FEE_WALLET_ADDRESS, 4988⟩], 94762, 4988, 250⟩ : SplitResult).transaction_fee) -
          (⟨[⟨"s", 94762⟩, ⟨FEE_WALLET_ADDRESS, 4988⟩], 94762, 4988, 250⟩ : SplitResult).seller_amount ∧
    (⟨[⟨"s", 94762⟩, ⟨FEE_WALLET_ADDRESS, 4988⟩], 94762, 4988, 250⟩ : SplitResult).seller_amount +
        (⟨[⟨"s", 94762⟩, ⟨FEE_WALLET_ADDRESS, 4988⟩], 94762, 4988, 250⟩ : SplitResult).fee_wallet_amount +
        (⟨[⟨"s", 94762⟩, ⟨FEE_WALLET_ADDRESS, 4988⟩], 94762, 4988, 250⟩ : SplitResult).transaction_fee =
        (utxo_balance [⟨"t", 0, 100000⟩] : ℤ) ∧
    546 ≤ (⟨[⟨"s", 94762⟩, ⟨FEE_WALLET_ADDRESS, 4988⟩], 94762, 4988, 250⟩ : SplitResult).seller_amount ∧
    546 ≤ (⟨[⟨"s", 94762⟩, ⟨FEE_WALLET_ADDRESS, 4988⟩], 94762, 4988, 250⟩ : SplitResult).fee_wallet_amount ∧
    (⟨[⟨"s", 94762⟩, ⟨FEE_WALLET_ADDRESS, 4988⟩], 94762, 4988, 250⟩ : SplitResult).outputs =
        [⟨"s", (⟨[⟨"s", 94762⟩, ⟨FEE_WALLET_ADDRESS, 4988⟩], 94762, 4988, 250⟩ : SplitResult).seller_amount⟩,
         ⟨FEE_WALLET_ADDRESS, (⟨[⟨"s", 94762⟩, ⟨FEE_WALLET_ADDRESS, 4988⟩], 94762, 4988, 250⟩ : SplitResult).fee_wallet_amount⟩] :=
  (send_batch_95_5_split_spec [⟨"t", 0, 100000⟩] "s" (by simp)).1 _ rfl

/-! ### C10: send-exact dust floor on the requested amount -/

/-- C10: whenever the requested amount converts to fewer than 546 satoshis
(and is non-negative), `send_specific_btc_amount` fails with the
amount-too-low error — before any transaction is built — even though the
balance covers amount + fee. -/
theorem send_specific_btc_amount_dust_floor (utxos : List UTXO)
    (dest src : String) (amount_btc : ℚ)
    (hpos : 0 ≤ pyInt (amount_btc * 100000000))
    (hdust : pyInt (amount_btc * 100000000) < 546)
    (hcover : pyInt (amount_btc * 100000000) + 250 ≤ (utxo_balance utxos : ℤ)) :
    send_specific_btc_amount utxos dest src amount_btc = .error .amountTooLow := by
  have hni : utxos.isEmpty = false := by
    cases utxos with
    | nil =>
      exfalso
      simp only [utxo_balance, List.map_nil, List.sum_nil, Nat.cast_zero] at hcover
      omega
    | cons a as => rfl
  unfold send_specific_btc_amount
  rw [hni]
  simp only [Bool.false_eq_true, if_false]
  rw [if_neg (by omega), if_pos (by omega)]

/-- C10 witness: requesting 0.000005 BTC (500 sats) from a 1000-sat wallet
— balance covers 500 + 250 — is rejected as below the dust floor. -/
theorem send_specific_btc_amount_dust_floor_witness :
    send_specific_btc_amount [⟨"t", 0, 1000⟩] "d" "s" (5 / 1000000) =
      .error .amountTooLow :=
  send_specific_btc_amount_dust_floor [⟨"t", 0, 1000⟩] "d" "s" (5 / 1000000)
    (by norm_num [pyInt]) (by norm_num [pyInt]) (by norm_num [pyInt, utxo_balance])

/-! ### C8: canonical low-S signatures -/

/-- Case analysis of `make_canonical_signature`: `r` is kept, `s` is
flipped to `order - s` exactly above the half order, and the result is
always low-S. -/
theorem make_canonical_signature_cases (rs : ℕ × ℕ) :
    (make_canonical_signature rs).1 = rs.1 ∧
    (SECP256K1_ORDER / 2 < rs.2 →
      (make_canonical_signature rs).2 = SECP256K1_ORDER - rs.2) ∧
    (rs.2 ≤ SECP256K1_ORDER / 2 → (make_canonical_signature rs).2 = rs.2) ∧
    (make_canonical_signature rs).2 ≤ SECP256K1_ORDER / 2 := by
  have hodd : 2 * (SECP256K1_ORDER / 2) + 1 = SECP256K1_ORDER := by decide
  unfold make_canonical_signature
  dsimp only
  split_ifs with h
  · exact ⟨rfl, fun _ => rfl, fun hc => absurd h (by omega), by dsimp only; omega⟩
  · exact ⟨rfl, fun hc => absurd hc h, fun _ => rfl, by omega⟩

/-- C8: every signature placed in a built transaction's witness is
canonical low-S: for every input, the witness holds the raw signature with
`s` replaced by `order - s` whenever `s > order/2` and `r` unchanged, so
its `s` component never exceeds `order/2`; the sighash byte is `0x01`. -/
theorem build_segwit_witnesses_low_s (raw_sigs : List (ℕ × ℕ)) (pubkey : List ℕ)
    (w : WitnessItem) (hw : w ∈ build_segwit_witnesses raw_sigs pubkey) :
    w.sig_s ≤ SECP256K1_ORDER / 2 ∧
    ∃ rs ∈ raw_sigs,
      w.sig_r = rs.1 ∧
      (SECP256K1_ORDER / 2 < rs.2 → w.sig_s = SECP256K1_ORDER - rs.2) ∧
      (rs.2 ≤ SECP256K1_ORDER / 2 → w.sig_s = rs.2) ∧
      w.sighash_type = 1 ∧ w.pubkey = pubkey := by
  simp only [build_segwit_witnesses, List.mem_map] at hw
  obtain ⟨rs, hrs, heq⟩ := hw
  subst heq
  obtain ⟨h1, h2, h3, h4⟩ := make_canonical_signature_cases rs
  exact ⟨h4, rs, hrs, h1, h2, h3, rfl, rfl⟩

/-- C8 witness: a raw signature with `s = order - 3 > order/2` is replaced
by the low-S pair `(5, 3)` in the witness. -/
theorem build_segwit_witnesses_low_s_witness :
    (⟨5, 3, 1, [2]⟩ : WitnessItem).sig_s ≤ SECP256K1_ORDER / 2 ∧
    ∃ rs ∈ [((5 : ℕ), SECP256K1_ORDER - 3)],
      (⟨5, 3, 1, [2]⟩ : WitnessItem).sig_r = rs.1 ∧
      (SECP256K1_ORDER / 2 < rs.2 →
        (⟨5, 3, 1, [2]⟩ : WitnessItem).sig_s = SECP256K1_ORDER - rs.2) ∧
      (rs.2 ≤ SECP256K1_ORDER / 2 →
        (⟨5, 3, 1, [2]⟩ : WitnessItem).sig_s = rs.2) ∧
      (⟨5, 3, 1, [2]⟩ : WitnessItem).sighash_type = 1 ∧
      (⟨5, 3, 1, [2]⟩ : WitnessItem).pubkey = [2] :=
  build_segwit_witnesses_low_s [(5, SECP256K1_ORDER - 3)] [2] ⟨5, 3, 1, [2]⟩
    (by decide)

/-! ### C3: dispute resolution with a REFUNDED outcome -/

/-- Inversion of a successful 50/50 dispute split: the seller receives
half (rounded down) of the spendable balance, the fee wallet the
remainder, and those are the only outputs. -/
theorem send_dispute_refund_50_50_ok (utxos : List UTXO) (seller : String)
    (r : SplitResult) (h : send_dispute_refund_50_50 utxos seller = .ok r) :
    r.transaction_fee = min 250 ((utxo_balance utxos : ℤ) - 1092) ∧
    r.seller_amount = ((utxo_balance utxos : ℤ) - r.transaction_fee) / 2 ∧
    r.fee_wallet_amount =
      ((utxo_balance utxos : ℤ) - r.transaction_fee) - r.seller_amount ∧
    r.outputs = [⟨seller, r.seller_amount⟩, ⟨FEE_WALLET_ADDRESS, r.fee_wallet_amount⟩] := by
  simp only [send_dispute_refund_50_50] at h
  split_ifs at h
  cases h
  exact ⟨rfl, rfl, rfl, rfl⟩

/-- C3: resolving a dispute with outcome REFUNDED on a BTC deal pays out
from the escrow wallet half (rounded down) of the spendable balance to the
seller and the remaining half to the fixed fee wallet — never to the buyer
— and sets the transaction status to REFUNDED; a failed refund commits
nothing; every other resolution outcome only updates the status and moves
no funds. -/
theorem resolve_dispute_spec (resolution crypto_type : String)
    (escrow_utxos : List UTXO) (seller_address buyer_address : String)
    (hb1 : buyer_address ≠ seller_address)
    (hb2 : buyer_address ≠ FEE_WALLET_ADDRESS) :
    (∀ st outs,
      resolve_dispute resolution crypto_type escrow_utxos seller_address =
        some (st, outs) →
      (resolution = "REFUNDED" ∧ crypto_type = "BTC" →
        st = "REFUNDED" ∧
        ∃ r, send_dispute_refund_50_50 escrow_utxos seller_address = .ok r ∧
          outs = [⟨seller_address, r.seller_amount⟩,
                  ⟨FEE_WALLET_ADDRESS, r.fee_wallet_amount⟩] ∧
          r.seller_amount = ((utxo_balance escrow_utxos : ℤ) - r.transaction_fee) / 2 ∧
          r.fee_wallet_amount =
            ((utxo_balance escrow_utxos : ℤ) - r.transaction_fee) - r.seller_amount ∧
          ∀ o ∈ outs, o.address ≠ buyer_address) ∧
      (¬(resolution = "REFUNDED" ∧ crypto_type = "BTC") →
        st = resolution ∧ outs = [])) ∧
    (resolution = "REFUNDED" → crypto_type = "BTC" →
      (∃ e, send_dispute_refund_50_50 escrow_utxos seller_address = .error e) →
      resolve_dispute resolution crypto_type escrow_utxos seller_address = none) := by
  unfold resolve_dispute
  by_cases hc : resolution = "REFUNDED" ∧ crypto_type = "BTC"
  · rw [if_pos hc]
    cases hs : send_dispute_refund_50_50 escrow_utxos seller_address with
    | ok r =>
      obtain ⟨hfee, hsell, hfw, houts⟩ :=
        send_dispute_refund_50_50_ok escrow_utxos seller_address r hs
      refine ⟨fun st outs heq => ?_, fun _ _ he => ?_⟩
      · have hpair : (resolution, r.outputs) = (st, outs) := Option.some.inj heq
        have h1 : resolution = st := congrArg Prod.fst hpair
        have h2 : r.outputs = outs := congrArg Prod.snd hpair
        refine ⟨fun _ => ⟨h1.symm.trans hc.1, r, rfl, by rw [← h2, houts],
            hsell, hfw, ?_⟩,
          fun hcon => absurd hc hcon⟩
        intro o ho
        rw [← h2, houts] at ho
        simp only [List.mem_cons, List.not_mem_nil, or_false] at ho
        rcases ho with rfl | rfl
        · exact fun hh => hb1 hh.symm
        · exact fun hh => hb2 hh.symm
      · obtain ⟨e, he⟩ := he
        exact Except.noConfusion he
    | error e =>
      exact ⟨fun st outs heq => Option.noConfusion heq, fun _ _ _ => rfl⟩
  · rw [if_neg hc]
    refine ⟨fun st outs heq => ?_, fun h1 h2 _ => absurd ⟨h1, h2⟩ hc⟩
    have hpair : (resolution, ([] : List TxOutput)) = (st, outs) :=
      Option.some.inj heq
    exact ⟨fun hcc => absurd hcc hc,
      fun _ => ⟨(congrArg Prod.fst hpair).symm, (congrArg Prod.snd hpair).symm⟩⟩

/-- C3 witness: a concrete REFUNDED resolution of a BTC deal with a
100000-sat escrow balance, seller address distinct from the buyer's. -/
theorem resolve_dispute_spec_witness :
    (∀ st outs,
      resolve_dispute "REFUNDED" "BTC" [⟨"t", 0, 100000⟩] "s" = some (st, outs) →
      ("REFUNDED" = "REFUNDED" ∧ "BTC" = "BTC" →
        st = "REFUNDED" ∧
        ∃ r, send_dispute_refund_50_50 [⟨"t", 0, 100000⟩] "s" = .ok r ∧
          outs = [⟨"s", r.seller_amount⟩,
                  ⟨FEE_WALLET_ADDRESS, r.fee_wallet_amount⟩] ∧
          r.seller_amount = ((utxo_balance [⟨"t", 0, 100000⟩] : ℤ) - r.transaction_fee) / 2 ∧
          r.fee_wallet_amount =
            ((utxo_balance [⟨"t", 0, 100000⟩] : ℤ) - r.transaction_fee) - r.seller_amount ∧
          ∀ o ∈ outs, o.address ≠ "b") ∧
      (¬("REFUNDED" = "REFUNDED" ∧ "BTC" = "BTC") →
        st = "REFUNDED" ∧ outs = [])) ∧
    ("REFUNDED" = "REFUNDED" → "BTC" = "BTC" →
      (∃ e, send_dispute_refund_50_50 [⟨"t", 0, 100000⟩] "s" = .error e) →
      resolve_dispute "REFUNDED" "BTC" [⟨"t", 0, 100000⟩] "s" = none) :=
  resolve_dispute_spec "REFUNDED" "BTC" [⟨"t", 0, 100000⟩] "s" "b"
    (by decide) (by decide)

/-! ### C1: non-negativity of confirmed balances under ledger mutations -/

/-- C1, counterexample to the claim as stated: from a state in which the
wallet's confirmed balance is 0 (non-negative), `subtract_wallet_balance`
of 1 succeeds — its insufficiency check is commented out in the source —
and leaves the confirmed balance at -1 < 0. -/
theorem subtract_wallet_balance_counterexample :
    subtract_wallet_balance (some 0) 1 = (.ok 0 (-1), some (-1)) ∧
    ((-1 : ℚ) < 0) := by
  constructor
  · simp only [subtract_wallet_balance]
    norm_num
  · norm_num

/-- C1 (amended): `subtract_wallet_balance` itself performs no balance
check — for an existing wallet it always succeeds with
`new = old - amount`, which may be negative; the debit on accept and the
full-deduction debit at deal creation do preserve non-negativity, because
their callers check the balance first. -/
theorem ledger_mutation_nonneg_spec :
    (∀ old amount : ℚ,
      subtract_wallet_balance (some old) amount =
        (.ok old (old - amount), some (old - amount))) ∧
    (subtract_wallet_balance none 1 = (.walletNotFound, none)) ∧
    (∀ b a r : ℚ, accept_transaction_debit b a = some r → r = b - a ∧ 0 ≤ r) ∧
    (∀ b t r : ℚ, create_full_deduction b t = some r → r = b - t ∧ 0 ≤ r) := by
  refine ⟨fun old amount => rfl, rfl, fun b a r h => ?_, fun b t r h => ?_⟩
  · unfold accept_transaction_debit at h
    split_ifs at h with hc
    · exact ⟨(Option.some.inj h).symm, by
        rw [← Option.some.inj h]
        linarith [not_lt.mp hc]⟩
  · unfold create_full_deduction at h
    split_ifs at h with hc
    · exact ⟨(Option.some.inj h).symm, by
        rw [← Option.some.inj h]
        linarith [hc]⟩

/-- C1 witness: the unconditional subtraction at balance 5, amount 2, and
the guarded accept debit at balance 5, amount 2, yielding 3 ≥ 0. -/
theorem ledger_mutation_nonneg_spec_witness :
    subtract_wallet_balance (some 5) 2 = (.ok 5 (5 - 2), some (5 - 2)) ∧
    ((3 : ℚ) = 5 - 2 ∧ 0 ≤ (3 : ℚ)) :=
  ⟨ledger_mutation_nonneg_spec.1 5 2,
   ledger_mutation_nonneg_spec.2.2.1 5 2 3 (by norm_num [accept_transaction_debit])⟩

/-! ### C2: the release threshold -/

/-- C2, counterexample to the claim as stated: with deal amount 1 BTC
(fee 0.05 BTC) and cached escrow balance 0.99 BTC — strictly below the
claimed threshold 0.99·(amount+fee) = 1.0395 — the release is NOT
rejected: the 95/5 split runs and the deal becomes COMPLETED, because the
code compares against 0.99·amount only. -/
theorem release_callback_counterexample :
    (release_callback ⟨1, 1, "PENDING", 1, true, some (99 / 100), true⟩
        [⟨"t", 0, 100000000⟩] "s").2 = "COMPLETED" ∧
    (∀ q, (release_callback ⟨1, 1, "PENDING", 1, true, some (99 / 100), true⟩
        [⟨"t", 0, 100000000⟩] "s").1 ≠ .underfunded q) ∧
    (99 / 100 : ℚ) < (99 / 100) * (1 + 1 * (5 / 100)) := by
  have hsplit : send_batch_95_5_split [⟨"t", 0, 100000000⟩] "s" =
      .ok ⟨[⟨"s", 94999762⟩, ⟨FEE_WALLET_ADDRESS, 4999988⟩],
           94999762, 4999988, 250⟩ := by
    unfold send_batch_95_5_split utxo_balance
    norm_num
  have h0 : release_callback ⟨1, 1, "PENDING", 1, true, some (99 / 100), true⟩
      [⟨"t", 0, 100000000⟩] "s" =
      (.completed ⟨[⟨"s", 94999762⟩, ⟨FEE_WALLET_ADDRESS, 4999988⟩],
        94999762, 4999988, 250⟩, "COMPLETED") := by
    unfold release_callback
    rw [hsplit]
    rw [if_neg (by decide : ¬((1 : ℕ) ≠ 1)),
      if_neg (by decide : ¬("PENDING" : String) = "EXPIRED"),
      if_neg (by decide : ¬("PENDING" : String) ≠ "PENDING")]
    dsimp only
    rw [if_neg (by norm_num : ¬((99 : ℚ) / 100 < 1 * (99 / 100))),
      if_neg (by decide : ¬(¬true = true))]
  refine ⟨by rw [h0], fun q => by rw [h0]; simp, by norm_num⟩

/-- C2 (amended): the release threshold is 0.99·amount — the 5% fee is not
included.  With an intermediary wallet and an available cached balance:
below 0.99·amount the release is rejected with the precise shortfall
(0.99·amount − balance) and the status is unchanged; at or above
0.99·amount (hence in particular at exactly 0.99·(amount+fee)) the release
proceeds to the 95/5 split, and the deal becomes COMPLETED when the split
succeeds. -/
theorem release_callback_spec (ctx : ReleaseCtx) (utxos : List UTXO)
    (sa : String) (b : ℚ)
    (hbuyer : ctx.buyer_id = ctx.user_id)
    (hstatus : ctx.status = "PENDING")
    (hint : ctx.has_intermediary = true)
    (hcache : ctx.cached_balance = some b) :
    (b < ctx.amount * (99 / 100) →
      release_callback ctx utxos sa =
        (.underfunded (ctx.amount * (99 / 100) - b), ctx.status)) ∧
    (ctx.amount * (99 / 100) ≤ b → ctx.seller_has_wallet = true →
      ∀ r, send_batch_95_5_split utxos sa = .ok r →
        release_callback ctx utxos sa = (.completed r, "COMPLETED")) := by
  unfold release_callback
  rw [if_neg (by simp [hbuyer]), hstatus, hint, hcache]
  rw [if_neg (by decide : ¬("PENDING" : String) = "EXPIRED"),
    if_neg (by simp : ¬("PENDING" : String) ≠ "PENDING")]
  dsimp only
  constructor
  · intro hlt
    rw [if_pos hlt]
  · intro hle hsw r hr
    rw [if_neg (not_lt.mpr hle), hsw, hr]
    simp

/-- C2 witness: buyer-matching PENDING deal, amount 1 BTC, cached balance
0.5 BTC < 0.99: rejected with shortfall 0.99 − 0.5 = 0.49. -/
theorem release_callback_spec_witness :
    ((1 : ℚ) / 2 < 1 * (99 / 100) →
      release_callback ⟨1, 1, "PENDING", 1, true, some (1 / 2), true⟩ [] "s" =
        (.underfunded (1 * (99 / 100) - 1 / 2), "PENDING")) ∧
    ((1 : ℚ) * (99 / 100) ≤ 1 / 2 → true = true →
      ∀ r, send_batch_95_5_split [] "s" = .ok r →
        release_callback ⟨1, 1, "PENDING", 1, true, some (1 / 2), true⟩ [] "s" =
          (.completed r, "COMPLETED")) :=
  release_callback_spec ⟨1, 1, "PENDING", 1, true, some (1 / 2), true⟩ [] "s"
    (1 / 2) rfl rfl rfl rfl

/-! ### C6: buyer-forward monitoring -/

/-- C6, counterexample to the claim as stated: with deal amount
0.00001 BTC (required total, including the 5% fee, 0.0000105 BTC =
1050 sats) and on-chain balance 1020 sats, the balance is at most the
required total, yet the monitor forwards via send-exact, not send-max: the
source compares the balance against the nominal amount, not the total. -/
theorem monitor_buyer_forward_counterexample :
    monitor_buyer_forward_decision 1020 (1 / 100000) = .sendExact (1 / 100000) ∧
    monitor_buyer_forward_decision 1020 (1 / 100000) ≠ .sendMax ∧
    (1020 : ℚ) / 100000000 ≤ (1 / 100000) + (1 / 100000) * (5 / 100) ∧
    250 < 1020 := by
  have hd : monitor_buyer_forward_decision 1020 (1 / 100000) =
      .sendExact (1 / 100000) := by
    unfold monitor_buyer_forward_decision
    rw [if_neg (by norm_num), if_neg (by norm_num)]
  exact ⟨hd, by rw [hd]; simp, by norm_num, by norm_num⟩

/-- C6 (amended): the monitor skips at or below 250 sats; above that it
forwards via send-max when the on-chain balance is at most the deal's
nominal amount (not amount+fee) and via send-exact for the nominal amount
otherwise; a successful transfer debits the buyer's ledger balance and
credits the escrow wallet's ledger balance by the forwarded amount and
marks the deal auto-transferred. -/
theorem monitor_buyer_forward_spec (bsat : ℕ) (amt : ℚ) :
    (bsat ≤ 250 → monitor_buyer_forward_decision bsat amt = .skip) ∧
    (250 < bsat → (bsat : ℚ) / 100000000 ≤ amt →
      monitor_buyer_forward_decision bsat amt = .sendMax) ∧
    (250 < bsat → amt < (bsat : ℚ) / 100000000 →
      monitor_buyer_forward_decision bsat amt = .sendExact amt) ∧
    (∀ b e s : ℚ, apply_auto_transfer b e s = (b - s, e + s, true)) := by
  unfold monitor_buyer_forward_decision apply_auto_transfer
  refine ⟨fun h => by rw [if_pos h], fun h1 h2 => ?_, fun h1 h2 => ?_,
    fun b e s => rfl⟩
  · rw [if_neg (by omega), if_pos h2]
  · rw [if_neg (by omega), if_neg (not_le.mpr h2)]

/-- C6 witness: concrete instances of all three decision branches and of
the ledger update. -/
theorem monitor_buyer_forward_spec_witness :
    monitor_buyer_forward_decision 100 1 = .skip ∧
    monitor_buyer_forward_decision 1000 1 = .sendMax ∧
    monitor_buyer_forward_decision 100000000 (1 / 100000000) =
      .sendExact (1 / 100000000) ∧
    apply_auto_transfer 5 7 2 = (5 - 2, 7 + 2, true) :=
  ⟨(monitor_buyer_forward_spec 100 1).1 (by norm_num),
   (monitor_buyer_forward_spec 1000 1).2.1 (by norm_num) (by norm_num),
   (monitor_buyer_forward_spec 100000000 (1 / 100000000)).2.2.1
     (by norm_num) (by norm_num),
   (monitor_buyer_forward_spec 0 0).2.2.2 5 7 2⟩

/-! ### C7: decline / cancel bookkeeping -/

/-- C7, counterexample to the claim as stated: a seller-initiated deal
(amount 1, `deducted_amount` 0) is declined by the buyer.  The funding
wallet's confirmed balance is credited with the `amount` 1 — not with the
`deducted_amount` 0 — and the counterpart wallet's pending credit of 1.05
is left in place, not removed. -/
theorem decline_transaction_counterexample :
    ((decline_transaction ⟨1, 2, 1, 1, 0, "PENDING", "w"⟩ 2
        (fun w => if w = "w" then some ((5 : ℚ), 2)
                  else if w = "cp" then some (0, 21 / 20) else none)).2 "w" =
      some (6, 1)) ∧
    ((6 : ℚ) ≠ 5 + 0) ∧
    ((decline_transaction ⟨1, 2, 1, 1, 0, "PENDING", "w"⟩ 2
        (fun w => if w = "w" then some ((5 : ℚ), 2)
                  else if w = "cp" then some (0, 21 / 20) else none)).2 "cp" =
      some (0, 21 / 20)) ∧
    (decline_transaction ⟨1, 2, 1, 1, 0, "PENDING", "w"⟩ 2
        (fun w => if w = "w" then some ((5 : ℚ), 2)
                  else if w = "cp" then some (0, 21 / 20) else none)).1.status =
      "CANCELLED" := by
  have h0 : decline_transaction ⟨1, 2, 1, 1, 0, "PENDING", "w"⟩ 2
      (fun w => if w = "w" then some ((5 : ℚ), 2)
                else if w = "cp" then some (0, 21 / 20) else none) =
      (⟨1, 2, 1, 1, 0, "CANCELLED", "w"⟩, fun w =>
        if w = "w" then some ((5 : ℚ) + 1, 2 - 1)
        else if w = "w" then some ((5 : ℚ), 2)
        else if w = "cp" then some (0, 21 / 20) else none) := by
    unfold decline_transaction
    norm_num
  rw [h0]
  refine ⟨?_, by norm_num, ?_, rfl⟩
  · dsimp only
    rw [if_pos rfl]
    norm_num
  · dsimp only
    rw [if_neg (by decide : ¬("cp" : String) = "w"),
      if_neg (by decide : ¬("cp" : String) = "w"),
      if_pos rfl]

/-- C7 (amended): decline (buyer only) and cancel (initiator only) are
permitted only while the deal is PENDING and set the status to CANCELLED;
both adjust only the recorded funding wallet — cancel credits
`deducted_amount` to its confirmed balance and debits the same from its
pending balance, decline credits the nominal `amount` and debits the same
from pending; the counterpart wallet is untouched; consequently for every
wallet the sum confirmed+pending is unchanged, so the summed wallet
balances touching the deal are conserved. -/
theorem decline_cancel_spec (tx : EscrowTx) (actor : ℕ) (wallets : WalletStore) :
    ((actor ≠ tx.buyer_id ∨ tx.status ≠ "PENDING") →
      decline_transaction tx actor wallets = (tx, wallets)) ∧
    ((actor ≠ tx.initiator_id ∨ tx.status ≠ "PENDING") →
      cancel_transaction tx actor wallets = (tx, wallets)) ∧
    (actor = tx.buyer_id → tx.status = "PENDING" →
      (decline_transaction tx actor wallets).1.status = "CANCELLED" ∧
      (∀ bal pend, wallets tx.wallet_id = some (bal, pend) →
        (decline_transaction tx actor wallets).2 tx.wallet_id =
          some (bal + tx.amount, pend - tx.amount)) ∧
      (∀ w, w ≠ tx.wallet_id →
        (decline_transaction tx actor wallets).2 w = wallets w) ∧
      (∀ w bal pend bal2 pend2, wallets w = some (bal, pend) →
        (decline_transaction tx actor wallets).2 w = some (bal2, pend2) →
        bal2 + pend2 = bal + pend)) ∧
    (actor = tx.initiator_id → tx.status = "PENDING" →
      (cancel_transaction tx actor wallets).1.status = "CANCELLED" ∧
      (∀ bal pend, wallets tx.wallet_id = some (bal, pend) →
        (cancel_transaction tx actor wallets).2 tx.wallet_id =
          some (bal + tx.deducted_amount, pend - tx.deducted_amount)) ∧
      (∀ w, w ≠ tx.wallet_id →
        (cancel_transaction tx actor wallets).2 w = wallets w) ∧
      (∀ w bal pend bal2 pend2, wallets w = some (bal, pend) →
        (cancel_transaction tx actor wallets).2 w = some (bal2, pend2) →
        bal2 + pend2 = bal + pend)) := by
  refine ⟨?_, ?_, ?_, ?_⟩
  · intro hc
    unfold decline_transaction
    rcases hc with hc | hc
    · rw [if_pos hc]
    · by_cases ha : actor ≠ tx.buyer_id
      · rw [if_pos ha]
      · rw [if_neg ha, if_pos hc]
  · intro hc
    unfold cancel_transaction
    rcases hc with hc | hc
    · rw [if_pos hc]
    · by_cases ha : actor ≠ tx.initiator_id
      · rw [if_pos ha]
      · rw [if_neg ha, if_pos hc]
  · intro ha hs
    unfold decline_transaction
    rw [if_neg (by simp [ha]), if_neg (by simp [hs])]
    cases hw : wallets tx.wallet_id with
    | none =>
      refine ⟨rfl, fun bal pend hbp => Option.noConfusion hbp, fun w hwn => rfl,
        fun w bal pend bal2 pend2 h1 h2 => ?_⟩
      have h2a : wallets w = some (bal2, pend2) := h2
      rw [h1] at h2a
      obtain ⟨h3, h4⟩ := Prod.mk.inj (Option.some.inj h2a)
      rw [← h3, ← h4]
    | some bp =>
      obtain ⟨bal0, pend0⟩ := bp
      dsimp only
      refine ⟨rfl, fun bal pend hbp => ?_, fun w hwn => by rw [if_neg hwn],
        fun w bal pend bal2 pend2 h1 h2 => ?_⟩
      · obtain ⟨h3, h4⟩ := Prod.mk.inj (Option.some.inj hbp)
        rw [if_pos rfl, h3, h4]
      · by_cases hwe : w = tx.wallet_id
        · subst hwe
          rw [hw] at h1
          obtain ⟨h3, h4⟩ := Prod.mk.inj (Option.some.inj h1)
          rw [if_pos rfl] at h2
          obtain ⟨h5, h6⟩ := Prod.mk.inj (Option.some.inj h2)
          rw [← h5, ← h6, ← h3, ← h4]
          ring
        · rw [if_neg hwe, h1] at h2
          obtain ⟨h5, h6⟩ := Prod.mk.inj (Option.some.inj h2)
          rw [← h5, ← h6]
  · intro ha hs
    unfold cancel_transaction
    rw [if_neg (by simp [ha]), if_neg (by simp [hs])]
    cases hw : wallets tx.wallet_id with
    | none =>
      refine ⟨rfl, fun bal pend hbp => Option.noConfusion hbp, fun w hwn => rfl,
        fun w bal pend bal2 pend2 h1 h2 => ?_⟩
      have h2a : wallets w = some (bal2, pend2) := h2
      rw [h1] at h2a
      obtain ⟨h3, h4⟩ := Prod.mk.inj (Option.some.inj h2a)
      rw [← h3, ← h4]
    | some bp =>
      obtain ⟨bal0, pend0⟩ := bp
      dsimp only
      refine ⟨rfl, fun bal pend hbp => ?_, fun w hwn => by rw [if_neg hwn],
        fun w bal pend bal2 pend2 h1 h2 => ?_⟩
      · obtain ⟨h3, h4⟩ := Prod.mk.inj (Option.some.inj hbp)
        rw [if_pos rfl, h3, h4]
      · by_cases hwe : w = tx.wallet_id
        · subst hwe
          rw [hw] at h1
          obtain ⟨h3, h4⟩ := Prod.mk.inj (Option.some.inj h1)
          rw [if_pos rfl] at h2
          obtain ⟨h5, h6⟩ := Prod.mk.inj (Option.some.inj h2)
          rw [← h5, ← h6, ← h3, ← h4]
          ring
        · rw [if_neg hwe, h1] at h2
          obtain ⟨h5, h6⟩ := Prod.mk.inj (Option.some.inj h2)
          rw [← h5, ← h6]

/-- C7 witness: a buyer-initiated deal (deducted 1.05) cancelled by the
initiator; the funding wallet moves from (0, 1.05) to (1.05, 0) and the
per-wallet sum is conserved. -/
theorem decline_cancel_spec_witness :
    (cancel_transaction ⟨1, 2, 2, 1, 21 / 20, "PENDING", "w"⟩ 2
        (fun w => if w = "w" then some ((0 : ℚ), 21 / 20) else none)).1.status =
      "CANCELLED" ∧
    (cancel_transaction ⟨1, 2, 2, 1, 21 / 20, "PENDING", "w"⟩ 2
        (fun w => if w = "w" then some ((0 : ℚ), 21 / 20) else none)).2 "w" =
      some (0 + 21 / 20, 21 / 20 - 21 / 20) := by
  have h := (decline_cancel_spec ⟨1, 2, 2, 1, 21 / 20, "PENDING", "w"⟩ 2
      (fun w => if w = "w" then some ((0 : ℚ), 21 / 20) else none)).2.2.2 rfl rfl
  exact ⟨h.1, h.2.1 0 (21 / 20) (by norm_num)⟩

/-! ### C9: bech32 encode/decode round trip

The development proceeds in layers: arithmetic value of bit-group lists,
the `convertbits` re-chunking invariant, GF(2)-linearity of the bech32
polymod, the checksum creation/verification identity, and finally the full
address round trip. -/

theorem bits_value_aux (k : ℕ) (l : List ℕ) (n : ℕ) :
    l.foldl (fun n v => n * 2 ^ k + v) n = n * 2 ^ (k * l.length) + bits_value k l := by
  induction l generalizing n with
  | nil => simp [bits_value]
  | cons v l ih =>
    simp only [List.foldl_cons, List.length_cons, bits_value]
    rw [ih (n * 2 ^ k + v), ih (0 * 2 ^ k + v)]
    have hpow : (2 : ℕ) ^ (k * (l.length + 1)) = 2 ^ (k * l.length) * 2 ^ k := by
      rw [Nat.mul_succ, pow_add]
    rw [hpow]
    ring

theorem bits_value_cons (k v : ℕ) (l : List ℕ) :
    bits_value k (v :: l) = v * 2 ^ (k * l.length) + bits_value k l := by
  show (v :: l).foldl (fun n v => n * 2 ^ k + v) 0 = _
  simp only [List.foldl_cons]
  rw [bits_value_aux]
  ring

theorem bits_value_append (k : ℕ) (l1 l2 : List ℕ) :
    bits_value k (l1 ++ l2) =
      bits_value k l1 * 2 ^ (k * l2.length) + bits_value k l2 := by
  show (l1 ++ l2).foldl (fun n v => n * 2 ^ k + v) 0 = _
  rw [List.foldl_append, bits_value_aux]
  rfl

theorem bits_value_lt (k : ℕ) (l : List ℕ) (hb : ∀ v ∈ l, v < 2 ^ k) :
    bits_value k l < 2 ^ (k * l.length) := by
  induction l with
  | nil => simp [bits_value]
  | cons v l ih =>
    have h1 := hb v (List.mem_cons_self v l)
    have h2 := ih fun x hx => hb x (List.mem_cons_of_mem _ hx)
    rw [bits_value_cons]
    simp only [List.length_cons]
    have hpow : (2 : ℕ) ^ (k * (l.length + 1)) = 2 ^ (k * l.length) * 2 ^ k := by
      rw [Nat.mul_succ, pow_add]
    rw [hpow]
    calc v * 2 ^ (k * l.length) + bits_value k l
        < v * 2 ^ (k * l.length) + 2 ^ (k * l.length) := by omega
      _ = (v + 1) * 2 ^ (k * l.length) := by ring
      _ ≤ 2 ^ k * 2 ^ (k * l.length) := Nat.mul_le_mul_right _ (by omega)
      _ = 2 ^ (k * l.length) * 2 ^ k := by ring

theorem bits_value_inj (k : ℕ) (l1 : List ℕ) : ∀ l2 : List ℕ,
    l1.length = l2.length → (∀ v ∈ l1, v < 2 ^ k) → (∀ v ∈ l2, v < 2 ^ k) →
    bits_value k l1 = bits_value k l2 → l1 = l2 := by
  induction l1 with
  | nil =>
    intro l2 hlen _ _ _
    cases l2 with
    | nil => rfl
    | cons w l2 => simp at hlen
  | cons v l ih =>
    intro l2 hlen hb1 hb2 hval
    cases l2 with
    | nil => simp at hlen
    | cons w l2 =>
      simp only [List.length_cons, Nat.add_right_cancel_iff] at hlen
      rw [bits_value_cons, bits_value_cons, hlen] at hval
      have hv1 : bits_value k l < 2 ^ (k * l2.length) := by
        rw [← hlen]
        exact bits_value_lt k l fun x hx => hb1 x (List.mem_cons_of_mem _ hx)
      have hv2 : bits_value k l2 < 2 ^ (k * l2.length) :=
        bits_value_lt k l2 fun x hx => hb2 x (List.mem_cons_of_mem _ hx)
      have hP : 0 < 2 ^ (k * l2.length) := Nat.pos_pow_of_pos _ (by norm_num)
      have hvw : v = w := by
        have e1 : (v * 2 ^ (k * l2.length) + bits_value k l) / 2 ^ (k * l2.length) = v := by
          rw [add_comm, Nat.add_mul_div_right _ _ hP, Nat.div_eq_of_lt hv1]
          omega
        have e2 : (w * 2 ^ (k * l2.length) + bits_value k l2) / 2 ^ (k * l2.length) = w := by
          rw [add_comm, Nat.add_mul_div_right _ _ hP, Nat.div_eq_of_lt hv2]
          omega
        rw [← e1, ← e2, hval]
      have htail : bits_value k l = bits_value k l2 := by
        rw [hvw] at hval
        omega
      rw [hvw, ih l2 hlen (fun x hx => hb1 x (List.mem_cons_of_mem _ hx))
        (fun x hx => hb2 x (List.mem_cons_of_mem _ hx)) htail]

/-- Specification of the emit loop: it drains `bits` below `tobits`,
emitting the high groups of `acc`, and the emitted groups together with
the remaining low bits of `acc` reconstruct `acc % 2^bits`. -/
theorem convert_emit_spec (t acc : ℕ) (ht : 0 < t) : ∀ bits,
    (convert_emit t (2 ^ t - 1) acc bits).2 < t ∧
    t * (convert_emit t (2 ^ t - 1) acc bits).1.length +
      (convert_emit t (2 ^ t - 1) acc bits).2 = bits ∧
    (∀ g ∈ (convert_emit t (2 ^ t - 1) acc bits).1, g < 2 ^ t) ∧
    bits_value t (convert_emit t (2 ^ t - 1) acc bits).1 *
        2 ^ (convert_emit t (2 ^ t - 1) acc bits).2 +
      acc % 2 ^ (convert_emit t (2 ^ t - 1) acc bits).2 = acc % 2 ^ bits := by
  intro bits
  induction bits using Nat.strong_induction_on with
  | _ bits ih =>
    rw [convert_emit]
    split_ifs with h
    · have hlt : bits - t < bits := by omega
      obtain ⟨ih1, ih2, ih3, ih4⟩ := ih (bits - t) hlt
      dsimp only
      have hpos : (0 : ℕ) < 2 ^ t := Nat.pos_pow_of_pos _ (by norm_num)
      refine ⟨ih1, ?_, ?_, ?_⟩
      · simp only [List.length_cons, Nat.mul_succ]
        omega
      · intro g hg
        rcases List.mem_cons.mp hg with rfl | hg
        · have := Nat.and_le_right (n := acc >>> (bits - t)) (m := 2 ^ t - 1)
          omega
        · exact ih3 g hg
      · rw [bits_value_cons]
        have hg : (acc >>> (bits - t)) &&& (2 ^ t - 1) = acc / 2 ^ (bits - t) % 2 ^ t := by
          rw [Nat.shiftRight_eq_div_pow, Nat.and_pow_two_sub_one_eq_mod]
        have hsplitmod : acc % 2 ^ bits =
            acc % 2 ^ (bits - t) + 2 ^ (bits - t) * (acc / 2 ^ (bits - t) % 2 ^ t) := by
          have h1 : (2 : ℕ) ^ (bits - t) * 2 ^ t = 2 ^ bits := by
            rw [← pow_add]
            congr 1
            omega
          rw [← h1, Nat.mod_mul]
        rw [hg, add_mul, mul_assoc, ← pow_add, ih2, add_assoc, ih4, hsplitmod]
        ring
    · exact ⟨by omega, by simp, by simp, by simp [bits_value]⟩

/-- Shifting in a fresh low group: `(a <<< f) | v = 2^f * a + v` when `v`
fits in `f` bits. -/
theorem or_shiftLeft_eq_add (a v f : ℕ) (hv : v < 2 ^ f) :
    (a <<< f) ||| v = 2 ^ f * a + v := by
  apply Nat.eq_of_testBit_eq
  intro j
  rw [Nat.testBit_mul_pow_two_add a hv j, Nat.testBit_or, Nat.testBit_shiftLeft]
  by_cases hj : j < f
  · have h1 : ¬ j ≥ f := by omega
    simp [h1, hj]
  · have h1 : j ≥ f := by omega
    have h2 : v.testBit j = false :=
      Nat.testBit_eq_false_of_lt
        (lt_of_lt_of_le hv (Nat.pow_le_pow_right (by norm_num) h1))
    simp [h1, h2, hj]

/-- The `convertbits` fold invariant: starting from a state that encodes
the prefix `p`, processing `data` (all values in range) succeeds and the
final groups-plus-carry encode `p ++ data`. -/
theorem convert_fold_spec (f t : ℕ) (hf : 0 < f) (ht : 0 < t) :
    ∀ (data p : List ℕ) (acc bits : ℕ) (ret : List ℕ),
      (∀ v ∈ data, v < 2 ^ f) →
      bits < t → acc < 2 ^ (f + t - 1) →
      (∀ g ∈ ret, g < 2 ^ t) →
      t * ret.length + bits = f * p.length →
      bits_value t ret * 2 ^ bits + acc % 2 ^ bits = bits_value f p →
      ∃ acc2 bits2 ret2,
        data.foldl (convert_step f t (2 ^ t - 1) (2 ^ (f + t - 1) - 1))
            (some (acc, bits, ret)) = some (acc2, bits2, ret2) ∧
        bits2 < t ∧ acc2 < 2 ^ (f + t - 1) ∧
        (∀ g ∈ ret2, g < 2 ^ t) ∧
        t * ret2.length + bits2 = f * (p.length + data.length) ∧
        bits_value t ret2 * 2 ^ bits2 + acc2 % 2 ^ bits2 =
          bits_value f (p ++ data) := by
  intro data
  induction data with
  | nil =>
    intro p acc bits ret _ h2 h3 h4 h5 h6
    exact ⟨acc, bits, ret, rfl, h2, h3, h4, by simpa using h5, by simpa using h6⟩
  | cons v data ihd =>
    intro p acc bits ret hb h2 h3 h4 h5 h6
    have hv : v < 2 ^ f := hb v (List.mem_cons_self v data)
    have hposf : (0 : ℕ) < 2 ^ f := Nat.pos_pow_of_pos _ (by norm_num)
    have hposb : (0 : ℕ) < 2 ^ bits := Nat.pos_pow_of_pos _ (by norm_num)
    have hposm : (0 : ℕ) < 2 ^ (f + t - 1) := Nat.pos_pow_of_pos _ (by norm_num)
    -- the step does not error and produces the masked shifted accumulator
    have hguard : v >>> f = 0 := by
      rw [Nat.shiftRight_eq_div_pow]
      exact Nat.div_eq_of_lt hv
    have hacc1 : ((acc <<< f) ||| v) &&& (2 ^ (f + t - 1) - 1) =
        (2 ^ f * acc + v) % 2 ^ (f + t - 1) := by
      rw [or_shiftLeft_eq_add acc v f hv, Nat.and_pow_two_sub_one_eq_mod]
    have hstep : convert_step f t (2 ^ t - 1) (2 ^ (f + t - 1) - 1)
        (some (acc, bits, ret)) v =
        some ((2 ^ f * acc + v) % 2 ^ (f + t - 1),
          (convert_emit t (2 ^ t - 1) ((2 ^ f * acc + v) % 2 ^ (f + t - 1)) (bits + f)).2,
          ret ++ (convert_emit t (2 ^ t - 1) ((2 ^ f * acc + v) % 2 ^ (f + t - 1)) (bits + f)).1) := by
      show (if v >>> f ≠ 0 then none else _) = _
      rw [if_neg (by simp [hguard])]
      rw [hacc1]
    set acc1 := (2 ^ f * acc + v) % 2 ^ (f + t - 1) with hacc1def
    obtain ⟨he1, he2, he3, he4⟩ := convert_emit_spec t acc1 ht (bits + f)
    set E := convert_emit t (2 ^ t - 1) acc1 (bits + f) with hEdef
    -- the carry after the emit encodes the old carry extended by v
    have hkey : acc1 % 2 ^ (bits + f) = acc % 2 ^ bits * 2 ^ f + v := by
      have hdvd : (2 : ℕ) ^ (bits + f) ∣ 2 ^ (f + t - 1) :=
        pow_dvd_pow 2 (by omega)
      have hm1 : acc1 % 2 ^ (bits + f) = (2 ^ f * acc + v) % 2 ^ (bits + f) := by
        rw [hacc1def, Nat.mod_mod_of_dvd _ hdvd]
      have hsplit : 2 ^ f * acc + v =
          (acc % 2 ^ bits * 2 ^ f + v) + acc / 2 ^ bits * 2 ^ (bits + f) := by
        calc 2 ^ f * acc + v
            = 2 ^ f * (2 ^ bits * (acc / 2 ^ bits) + acc % 2 ^ bits) + v := by
              rw [Nat.div_add_mod]
          _ = (acc % 2 ^ bits * 2 ^ f + v) + acc / 2 ^ bits * (2 ^ bits * 2 ^ f) := by
              ring
          _ = (acc % 2 ^ bits * 2 ^ f + v) + acc / 2 ^ bits * 2 ^ (bits + f) := by
              rw [pow_add]
      have hlt2 : acc % 2 ^ bits * 2 ^ f + v < 2 ^ (bits + f) := by
        have hmlt : acc % 2 ^ bits < 2 ^ bits := Nat.mod_lt _ hposb
        calc acc % 2 ^ bits * 2 ^ f + v
            < acc % 2 ^ bits * 2 ^ f + 2 ^ f := by omega
          _ = (acc % 2 ^ bits + 1) * 2 ^ f := by ring
          _ ≤ 2 ^ bits * 2 ^ f := Nat.mul_le_mul_right _ (by omega)
          _ = 2 ^ (bits + f) := by rw [pow_add]
      rw [hm1, hsplit, Nat.add_mul_mod_self_right, Nat.mod_eq_of_lt hlt2]
    -- apply the induction hypothesis from the stepped state
    have hnew6 : bits_value t (ret ++ E.1) * 2 ^ E.2 + acc1 % 2 ^ E.2 =
        bits_value f (p ++ [v]) := by
      rw [bits_value_append, add_mul, mul_assoc, ← pow_add, he2, add_assoc, he4,
        hkey, bits_value_append, ← h6]
      have hval_v : bits_value f [v] = v := by
        rw [bits_value_cons]
        simp [bits_value]
      rw [hval_v]
      simp only [List.length_cons, List.length_nil, Nat.mul_one]
      rw [pow_add]
      ring
    have hnew3 : acc1 < 2 ^ (f + t - 1) := Nat.mod_lt _ hposm
    have hnew4 : ∀ g ∈ ret ++ E.1, g < 2 ^ t := by
      intro g hg
      rcases List.mem_append.mp hg with hg | hg
      · exact h4 g hg
      · exact he3 g hg
    have hnew5 : t * (ret ++ E.1).length + E.2 = f * (p ++ [v]).length := by
      simp only [List.length_append, List.length_cons, List.length_nil,
        Nat.mul_add, Nat.mul_succ]
      omega
    obtain ⟨acc2, bits2, ret2, hfold, i2, i3, i4, i5, i6⟩ :=
      ihd (p ++ [v]) acc1 E.2 (ret ++ E.1)
        (fun x hx => hb x (List.mem_cons_of_mem _ hx)) he1 hnew3 hnew4 hnew5 hnew6
    refine ⟨acc2, bits2, ret2, ?_, i2, i3, i4, ?_, ?_⟩
    · rw [List.foldl_cons, hstep]
      exact hfold
    · simp only [List.length_append, List.length_cons, List.length_nil] at i5 ⊢
      rw [show p.length + (data.length + 1) = p.length + 1 + data.length by omega]
      exact i5
    · simp only [List.append_assoc, List.singleton_append] at i6
      exact i6

/-- `convertbits(data, 8, 5, pad=True)` on 20 in-range bytes: succeeds with
32 five-bit groups of the same total value (160 bits divide evenly, so the
pad contributes nothing). -/
theorem convertbits_85 (data : List ℕ) (hlen : data.length = 20)
    (hb : ∀ v ∈ data, v < 256) :
    ∃ ret, convertbits data 8 5 true = some ret ∧ ret.length = 32 ∧
      (∀ g ∈ ret, g < 32) ∧ bits_value 5 ret = bits_value 8 data := by
  have hstart : bits_value 5 ([] : List ℕ) * 2 ^ 0 + 0 % 2 ^ 0 =
      bits_value 8 ([] : List ℕ) := by
    simp [bits_value]
  obtain ⟨acc2, bits2, ret2, hfold, i2, i3, i4, i5, i6⟩ :=
    convert_fold_spec 8 5 (by norm_num) (by norm_num) data [] 0 0 []
      (fun v hv => by have h := hb v hv; norm_num; omega)
      (by norm_num) (by norm_num) (by simp) (by simp) hstart
  simp only [List.length_nil, List.nil_append, Nat.zero_add] at i5 i6
  rw [hlen] at i5
  have hbits0 : bits2 = 0 := by omega
  have hlen2 : ret2.length = 32 := by omega
  refine ⟨ret2, ?_, hlen2,
    fun g hg => by have h := i4 g hg; norm_num at h; omega, ?_⟩
  · simp only [convertbits]
    rw [show ((1 <<< 5 : ℕ) - 1) = 2 ^ 5 - 1 from by decide,
      show ((1 <<< (8 + 5 - 1) : ℕ) - 1) = 2 ^ (8 + 5 - 1) - 1 from by decide,
      hfold, hbits0]
    simp
  · rw [hbits0] at i6
    simpa [Nat.mod_one] using i6

/-- `convertbits(groups, 5, 8, pad=False)` on 32 in-range groups: succeeds
with 20 bytes of the same total value, and the strict no-pad checks pass. -/
theorem convertbits_58 (data : List ℕ) (hlen : data.length = 32)
    (hb : ∀ v ∈ data, v < 32) :
    ∃ ret, convertbits data 5 8 false = some ret ∧ ret.length = 20 ∧
      (∀ g ∈ ret, g < 256) ∧ bits_value 8 ret = bits_value 5 data := by
  have hstart : bits_value 8 ([] : List ℕ) * 2 ^ 0 + 0 % 2 ^ 0 =
      bits_value 5 ([] : List ℕ) := by
    simp [bits_value]
  obtain ⟨acc2, bits2, ret2, hfold, i2, i3, i4, i5, i6⟩ :=
    convert_fold_spec 5 8 (by norm_num) (by norm_num) data [] 0 0 []
      (fun v hv => by have h := hb v hv; norm_num; omega)
      (by norm_num) (by norm_num) (by simp) (by simp) hstart
  simp only [List.length_nil, List.nil_append, Nat.zero_add] at i5 i6
  rw [hlen] at i5
  have hbits0 : bits2 = 0 := by omega
  have hlen2 : ret2.length = 20 := by omega
  refine ⟨ret2, ?_, hlen2,
    fun g hg => by have h := i4 g hg; norm_num at h; omega, ?_⟩
  · simp only [convertbits]
    rw [show ((1 <<< 8 : ℕ) - 1) = 2 ^ 8 - 1 from by decide,
      show ((1 <<< (5 + 8 - 1) : ℕ) - 1) = 2 ^ (5 + 8 - 1) - 1 from by decide,
      hfold, hbits0]
    have hz : acc2 <<< 8 &&& 255 = 0 := by
      rw [Nat.shiftLeft_eq, show (255 : ℕ) = 2 ^ 8 - 1 from by norm_num,
        Nat.and_pow_two_sub_one_eq_mod]
      exact Nat.mul_mod_left _ _
    simp [hz]
  · rw [hbits0] at i6
    simpa [Nat.mod_one] using i6

/-- `convertbits` 8→5 then 5→8 on a 20-byte program is the identity. -/
theorem convertbits_roundtrip (data : List ℕ) (hlen : data.length = 20)
    (hb : ∀ v ∈ data, v < 256) :
    ∃ five, convertbits data 8 5 true = some five ∧ five.length = 32 ∧
      (∀ g ∈ five, g < 32) ∧ convertbits five 5 8 false = some data := by
  obtain ⟨five, h1, h2, h3, h4⟩ := convertbits_85 data hlen hb
  obtain ⟨back, g1, g2, g3, g4⟩ := convertbits_58 five h2 h3
  have hback : back = data := by
    apply bits_value_inj 8 back data (by rw [g2, hlen])
    · intro v hv
      have h := g3 v hv
      norm_num
      omega
    · intro v hv
      have h := hb v hv
      norm_num
      omega
    · rw [g4, h4]
  exact ⟨five, h1, h2, h3, hback ▸ g1⟩

theorem shiftRight_xor_distrib (a b n : ℕ) :
    (a ^^^ b) >>> n = a >>> n ^^^ b >>> n := by
  apply Nat.eq_of_testBit_eq
  intro i
  simp [Nat.testBit_shiftRight, Nat.testBit_xor]

theorem shiftLeft_xor_distrib (a b n : ℕ) :
    (a ^^^ b) <<< n = a <<< n ^^^ b <<< n := by
  apply Nat.eq_of_testBit_eq
  intro i
  by_cases h : n ≤ i <;>
    simp [Nat.testBit_shiftLeft, Nat.testBit_xor, h]

theorem xor_mix (p q r s : ℕ) :
    (p ^^^ q) ^^^ (r ^^^ s) = (p ^^^ r) ^^^ (q ^^^ s) := by
  rw [Nat.xor_assoc p q (r ^^^ s), Nat.xor_assoc p r (q ^^^ s)]
  congr 1
  rw [← Nat.xor_assoc q r s, Nat.xor_comm q r, Nat.xor_assoc r q s]

/-- Factoring a fold of conditional xors over the starting value. -/
theorem polymod_red_factor (b : ℕ) : ∀ (l : List ℕ) (c d : ℕ),
    l.foldl (fun c i => if (b >>> i) &&& 1 = 1 then c ^^^ bech32_gen.getD i 0 else c)
      (c ^^^ d) =
    c ^^^ l.foldl
      (fun c i => if (b >>> i) &&& 1 = 1 then c ^^^ bech32_gen.getD i 0 else c) d := by
  intro l
  induction l with
  | nil => intro c d; rfl
  | cons i l ih =>
    intro c d
    simp only [List.foldl_cons]
    by_cases h : (b >>> i) &&& 1 = 1
    · rw [if_pos h, if_pos h, Nat.xor_assoc]
      exact ih c (d ^^^ bech32_gen.getD i 0)
    · rw [if_neg h, if_neg h]
      exact ih c d

theorem polymod_red_start (b : ℕ) (l : List ℕ) (s : ℕ) :
    l.foldl (fun c i => if (b >>> i) &&& 1 = 1 then c ^^^ bech32_gen.getD i 0 else c) s =
    s ^^^ l.foldl
      (fun c i => if (b >>> i) &&& 1 = 1 then c ^^^ bech32_gen.getD i 0 else c) 0 := by
  have h := polymod_red_factor b l s 0
  rwa [Nat.xor_zero] at h

/-- GF(2)-linearity of the generator-reduction fold in the top-bit group. -/
theorem polymod_red_linear (bA bB : ℕ) : ∀ l : List ℕ,
    l.foldl (fun c i => if ((bA ^^^ bB) >>> i) &&& 1 = 1 then c ^^^ bech32_gen.getD i 0 else c) 0 =
    l.foldl (fun c i => if (bA >>> i) &&& 1 = 1 then c ^^^ bech32_gen.getD i 0 else c) 0 ^^^
    l.foldl (fun c i => if (bB >>> i) &&& 1 = 1 then c ^^^ bech32_gen.getD i 0 else c) 0 := by
  intro l
  induction l with
  | nil => simp
  | cons i l ih =>
    simp only [List.foldl_cons]
    rw [polymod_red_start (bA ^^^ bB) l, polymod_red_start bA l, polymod_red_start bB l,
      ih, xor_mix]
    congr 1
    have hsplit : ((bA ^^^ bB) >>> i) &&& 1 = ((bA >>> i) &&& 1) ^^^ ((bB >>> i) &&& 1) := by
      rw [shiftRight_xor_distrib, Nat.and_xor_distrib_right]
    have ha2 : (bA >>> i) &&& 1 ≤ 1 := Nat.and_le_right
    have hb2 : (bB >>> i) &&& 1 ≤ 1 := Nat.and_le_right
    have ha0 : (bA >>> i) &&& 1 = 0 ∨ (bA >>> i) &&& 1 = 1 := by omega
    have hb0 : (bB >>> i) &&& 1 = 0 ∨ (bB >>> i) &&& 1 = 1 := by omega
    rcases ha0 with ha | ha <;> rcases hb0 with hb' | hb' <;>
      simp [hsplit, ha, hb', Nat.xor_self, Nat.zero_xor, Nat.xor_zero]

/-- GF(2)-linearity of one polymod step. -/
theorem bech32_polymod_step_linear (a b v w : ℕ) :
    bech32_polymod_step (a ^^^ b) (v ^^^ w) =
      bech32_polymod_step a v ^^^ bech32_polymod_step b w := by
  simp only [bech32_polymod_step]
  rw [shiftRight_xor_distrib a b 25]
  have hchk1 : (((a ^^^ b) &&& 0x1ffffff) <<< 5) ^^^ (v ^^^ w) =
      (((a &&& 0x1ffffff) <<< 5) ^^^ v) ^^^ (((b &&& 0x1ffffff) <<< 5) ^^^ w) := by
    rw [Nat.and_xor_distrib_right, shiftLeft_xor_distrib, xor_mix]
  rw [hchk1, polymod_red_start (a >>> 25 ^^^ b >>> 25) (List.range 5),
    polymod_red_linear (a >>> 25) (b >>> 25) (List.range 5),
    polymod_red_start (a >>> 25) (List.range 5) (((a &&& 0x1ffffff) <<< 5) ^^^ v),
    polymod_red_start (b >>> 25) (List.range 5) (((b &&& 0x1ffffff) <<< 5) ^^^ w)]
  exact xor_mix _ _ _ _

/-- GF(2)-linearity of the polymod fold over value lists of equal length. -/
theorem polymod_foldl_linear : ∀ (l1 l2 : List ℕ) (a b : ℕ),
    l1.length = l2.length →
    List.foldl bech32_polymod_step (a ^^^ b)
        (List.zipWith (fun x y => x ^^^ y) l1 l2) =
      List.foldl bech32_polymod_step a l1 ^^^
        List.foldl bech32_polymod_step b l2 := by
  intro l1
  induction l1 with
  | nil =>
    intro l2 a b hlen
    cases l2 with
    | nil => rfl
    | cons y l2 => simp at hlen
  | cons x l1 ih =>
    intro l2 a b hlen
    cases l2 with
    | nil => simp at hlen
    | cons y l2 =>
      simp only [List.length_cons, Nat.add_right_cancel_iff] at hlen
      simp only [List.zipWith_cons_cons, List.foldl_cons]
      rw [bech32_polymod_step_linear]
      exact ih l2 _ _ hlen

/-- With the top 5 bits clear, a polymod step is just shift-and-xor: no
generator reduction fires. -/
theorem polymod_step_small (s c : ℕ) (hs : s < 2 ^ 25) :
    bech32_polymod_step s c = (s <<< 5) ^^^ c := by
  simp only [bech32_polymod_step]
  have hb0 : s >>> 25 = 0 := by
    rw [Nat.shiftRight_eq_div_pow]
    exact Nat.div_eq_of_lt hs
  have hmask : s &&& 0x1ffffff = s := by
    rw [show (0x1ffffff : ℕ) = 2 ^ 25 - 1 from by norm_num,
      Nat.and_pow_two_sub_one_eq_mod]
    exact Nat.mod_eq_of_lt hs
  rw [hb0, hmask]
  have hfold : ∀ (l : List ℕ) (c0 : ℕ),
      l.foldl (fun c i => if (0 >>> i) &&& 1 = 1 then c ^^^ bech32_gen.getD i 0 else c)
        c0 = c0 := by
    intro l
    induction l with
    | nil => intro c0; rfl
    | cons i l ih =>
      intro c0
      simp only [List.foldl_cons]
      rw [if_neg (by simp)]
      exact ih c0
  exact hfold _ _

/-- High-to-low 5-bit chunks of a 30-bit value feed back through the
polymod fold (from state 0) to reconstruct the value. -/
theorem testbit_recompose (y : ℕ) : ((y >>> 5) <<< 5) ^^^ (y &&& 31) = y := by
  apply Nat.eq_of_testBit_eq
  intro i
  by_cases h : 5 ≤ i
  · have h31 : (y &&& 31).testBit i = false := by
      rw [show (31 : ℕ) = 2 ^ 5 - 1 from by norm_num, Nat.and_pow_two_sub_one_eq_mod]
      exact Nat.testBit_eq_false_of_lt
        (lt_of_lt_of_le (Nat.mod_lt _ (by norm_num)) (Nat.pow_le_pow_right (by norm_num) h))
    rw [Nat.testBit_xor, Nat.testBit_shiftLeft, h31, Nat.testBit_shiftRight]
    simp [h, show 5 + (i - 5) = i from by omega]
  · have hi5 : i < 5 := by omega
    have hsl : ((y >>> 5) <<< 5).testBit i = false := by
      rw [Nat.testBit_shiftLeft]
      simp [show ¬ i ≥ 5 from by omega]
    have h31 : (y &&& 31).testBit i = y.testBit i := by
      rw [show (31 : ℕ) = 2 ^ 5 - 1 from by norm_num, Nat.and_pow_two_sub_one_eq_mod,
        Nat.testBit_mod_two_pow]
      simp [hi5]
    rw [Nat.testBit_xor, hsl, h31]
    simp

theorem polymod_chunks (P : ℕ) (hP : P < 2 ^ 30) :
    List.foldl bech32_polymod_step 0
      [(P >>> 25) &&& 31, (P >>> 20) &&& 31, (P >>> 15) &&& 31,
       (P >>> 10) &&& 31, (P >>> 5) &&& 31, P &&& 31] = P := by
  have hsh : ∀ a : ℕ, P >>> a >>> 5 = P >>> (a + 5) := fun a =>
    (Nat.shiftRight_add P a 5).symm
  have h30 : P >>> 30 = 0 := by
    rw [Nat.shiftRight_eq_div_pow]
    exact Nat.div_eq_of_lt hP
  have hstep : ∀ a : ℕ, bech32_polymod_step (P >>> (a + 5)) ((P >>> a) &&& 31) =
      P >>> a := by
    intro a
    have hlt : P >>> a >>> 5 < 2 ^ 25 := by
      rw [hsh, Nat.shiftRight_eq_div_pow]
      have hmul : P < 2 ^ (a + 5) * 2 ^ 25 := by
        calc P < 2 ^ 30 := hP
          _ ≤ 2 ^ (a + 5) * 2 ^ 25 := by
            rw [← pow_add]
            exact Nat.pow_le_pow_right (by norm_num) (by omega)
      exact Nat.div_lt_of_lt_mul hmul
    have h := polymod_step_small (P >>> (a + 5)) ((P >>> a) &&& 31) (by rwa [hsh] at hlt)
    rw [h, ← hsh a, testbit_recompose]
  have h25 : bech32_polymod_step 0 ((P >>> 25) &&& 31) = P >>> 25 := by
    have h := hstep 25
    norm_num at h
    rwa [h30] at h
  have h20 : bech32_polymod_step (P >>> 25) ((P >>> 20) &&& 31) = P >>> 20 := by
    have h := hstep 20
    norm_num at h
    exact h
  have h15 : bech32_polymod_step (P >>> 20) ((P >>> 15) &&& 31) = P >>> 15 := by
    have h := hstep 15
    norm_num at h
    exact h
  have h10 : bech32_polymod_step (P >>> 15) ((P >>> 10) &&& 31) = P >>> 10 := by
    have h := hstep 10
    norm_num at h
    exact h
  have h5 : bech32_polymod_step (P >>> 10) ((P >>> 5) &&& 31) = P >>> 5 := by
    have h := hstep 5
    norm_num at h
    exact h
  have h0 : bech32_polymod_step (P >>> 5) (P &&& 31) = P := by
    have h := hstep 0
    simp only [Nat.zero_add, Nat.shiftRight_zero] at h
    exact h
  simp only [List.foldl_cons, List.foldl_nil]
  rw [h25, h20, h15, h10, h5, h0]

/-- Every generator constant is below 2^30. -/
theorem bech32_gen_lt (i : ℕ) : bech32_gen.getD i 0 < 2 ^ 30 := by
  match i with
  | 0 => decide
  | 1 => decide
  | 2 => decide
  | 3 => decide
  | 4 => decide
  | n + 5 =>
    rw [List.getD_eq_default]
    · norm_num
    · simp [bech32_gen]

/-- A polymod step keeps the checksum register below 2^30 whenever the
incoming value is. -/
theorem polymod_step_lt (chk v : ℕ) (hv : v < 2 ^ 30) :
    bech32_polymod_step chk v < 2 ^ 30 := by
  simp only [bech32_polymod_step]
  have h1 : ((chk &&& 0x1ffffff) <<< 5) ^^^ v < 2 ^ 30 := by
    apply Nat.xor_lt_two_pow ?_ hv
    rw [Nat.shiftLeft_eq]
    calc (chk &&& 0x1ffffff) * 2 ^ 5 ≤ 0x1ffffff * 2 ^ 5 :=
        Nat.mul_le_mul_right _ Nat.and_le_right
      _ < 2 ^ 30 := by norm_num
  have hfold : ∀ (l : List ℕ) (c : ℕ), c < 2 ^ 30 →
      l.foldl (fun c i => if (chk >>> 25 >>> i) &&& 1 = 1 then
        c ^^^ bech32_gen.getD i 0 else c) c < 2 ^ 30 := by
    intro l
    induction l with
    | nil => intro c hc; exact hc
    | cons i l ih =>
      intro c hc
      simp only [List.foldl_cons]
      apply ih
      split_ifs
      · exact Nat.xor_lt_two_pow hc (bech32_gen_lt i)
      · exact hc
  exact hfold _ _ h1

theorem polymod_foldl_lt : ∀ (l : List ℕ) (s : ℕ), s < 2 ^ 30 →
    (∀ v ∈ l, v < 2 ^ 30) → List.foldl bech32_polymod_step s l < 2 ^ 30 := by
  intro l
  induction l with
  | nil => intro s hs _; exact hs
  | cons v l ih =>
    intro s hs hl
    simp only [List.foldl_cons]
    exact ih _ (polymod_step_lt s v (hl v (List.mem_cons_self _ _)))
      fun x hx => hl x (List.mem_cons_of_mem _ hx)

/-- The expansion of any hrp only produces values below 2^30. -/
theorem bech32_hrp_expand_lt (hrp : List Char) :
    ∀ v ∈ bech32_hrp_expand hrp, v < 2 ^ 30 := by
  intro v hv
  unfold bech32_hrp_expand at hv
  rcases List.mem_append.mp hv with hv | hv
  · rcases List.mem_append.mp hv with hv | hv
    · obtain ⟨c, _, rfl⟩ := List.mem_map.mp hv
      have h1 : c.toNat < 2 ^ 32 := UInt32.toNat_lt c.val
      rw [Nat.shiftRight_eq_div_pow]
      have h2 : c.toNat / 2 ^ 5 < 2 ^ 27 := by
        apply Nat.div_lt_of_lt_mul
        calc c.toNat < 2 ^ 32 := h1
          _ = 2 ^ 5 * 2 ^ 27 := by norm_num
      calc c.toNat / 2 ^ 5 < 2 ^ 27 := h2
        _ < 2 ^ 30 := by norm_num
    · simp only [List.mem_singleton] at hv
      subst hv
      norm_num
  · obtain ⟨c, _, rfl⟩ := List.mem_map.mp hv
    calc c.toNat &&& 31 ≤ 31 := Nat.and_le_right
      _ < 2 ^ 30 := by norm_num

/-- The checksum created by `bech32_create_checksum` always verifies under
`bech32_verify_checksum`: the defining identity of the bech32 code. -/
theorem bech32_create_checksum_verify (hrp : List Char) (data : List ℕ)
    (hd : ∀ v ∈ data, v < 32) :
    bech32_verify_checksum hrp (data ++ bech32_create_checksum hrp data) = true := by
  have hVb : ∀ v ∈ (bech32_hrp_expand hrp ++ data) ++ [0, 0, 0, 0, 0, 0], v < 2 ^ 30 := by
    intro v hv
    rcases List.mem_append.mp hv with hv | hv
    · rcases List.mem_append.mp hv with hv | hv
      · exact bech32_hrp_expand_lt hrp v hv
      · calc v < 32 := hd v hv
          _ < 2 ^ 30 := by norm_num
    · simp only [List.mem_cons, List.not_mem_nil, or_false] at hv
      rcases hv with rfl | rfl | rfl | rfl | rfl | rfl <;> norm_num
  have hP0 : bech32_polymod ((bech32_hrp_expand hrp ++ data) ++ [0, 0, 0, 0, 0, 0]) <
      2 ^ 30 := polymod_foldl_lt _ 1 (by norm_num) hVb
  have hpm : bech32_polymod ((bech32_hrp_expand hrp ++ data) ++ [0, 0, 0, 0, 0, 0]) ^^^ 1 <
      2 ^ 30 := Nat.xor_lt_two_pow hP0 (by norm_num)
  set pm := bech32_polymod ((bech32_hrp_expand hrp ++ data) ++ [0, 0, 0, 0, 0, 0]) ^^^ 1
    with hpmdef
  have hcs : bech32_create_checksum hrp data =
      [(pm >>> 25) &&& 31, (pm >>> 20) &&& 31, (pm >>> 15) &&& 31,
       (pm >>> 10) &&& 31, (pm >>> 5) &&& 31, pm &&& 31] := by
    simp only [bech32_create_checksum]
    rw [← hpmdef]
    rfl
  have hgoal : bech32_polymod
      (bech32_hrp_expand hrp ++ (data ++ bech32_create_checksum hrp data)) = 1 := by
    rw [← List.append_assoc]
    show List.foldl bech32_polymod_step 1
      ((bech32_hrp_expand hrp ++ data) ++ bech32_create_checksum hrp data) = 1
    rw [List.foldl_append, hcs]
    set S := List.foldl bech32_polymod_step 1 (bech32_hrp_expand hrp ++ data) with hS
    have hzip : [(pm >>> 25) &&& 31, (pm >>> 20) &&& 31, (pm >>> 15) &&& 31,
        (pm >>> 10) &&& 31, (pm >>> 5) &&& 31, pm &&& 31] =
        List.zipWith (fun x y => x ^^^ y) [0, 0, 0, 0, 0, 0]
          [(pm >>> 25) &&& 31, (pm >>> 20) &&& 31, (pm >>> 15) &&& 31,
           (pm >>> 10) &&& 31, (pm >>> 5) &&& 31, pm &&& 31] := by
      simp [Nat.zero_xor]
    rw [hzip, show S = S ^^^ 0 from (Nat.xor_zero S).symm,
      polymod_foldl_linear [0, 0, 0, 0, 0, 0]
        [(pm >>> 25) &&& 31, (pm >>> 20) &&& 31, (pm >>> 15) &&& 31,
         (pm >>> 10) &&& 31, (pm >>> 5) &&& 31, pm &&& 31] S 0 (by simp)]
    have h1 : List.foldl bech32_polymod_step S [0, 0, 0, 0, 0, 0] =
        bech32_polymod ((bech32_hrp_expand hrp ++ data) ++ [0, 0, 0, 0, 0, 0]) := by
      rw [hS]
      exact (List.foldl_append bech32_polymod_step 1
        (bech32_hrp_expand hrp ++ data) [0, 0, 0, 0, 0, 0]).symm
    rw [h1, polymod_chunks pm hpm, hpmdef]
    exact Nat.xor_cancel_left _ _
  unfold bech32_verify_checksum
  rw [hgoal]
  rfl

/-- Every bech32 alphabet character is fixed by `Char.toLower`. -/
theorem charset_lower : ∀ d < 32, Char.toLower (bech32_charset.getD d ' ') =
    bech32_charset.getD d ' ' := by decide

/-- `indexOf` inverts `getD` on the bech32 alphabet. -/
theorem charset_index : ∀ d < 32,
    bech32_charset.indexOf (bech32_charset.getD d ' ') = d := by decide

/-- Rendering an in-range group lands inside the alphabet. -/
theorem charset_mem : ∀ d < 32, bech32_charset.getD d ' ' ∈ bech32_charset := by
  decide

/-- The separator `1` is not a bech32 alphabet character. -/
theorem charset_ne_one : ∀ d < 32, bech32_charset.getD d ' ' ≠ '1' := by decide

/-- `rfind_char` of an absent character is `none`. -/
theorem rfind_char_none (c : Char) : ∀ l : List Char, c ∉ l →
    rfind_char l c = none := by
  intro l
  induction l with
  | nil => intro _; rfl
  | cons x xs ih =>
    intro h
    simp only [List.mem_cons, not_or] at h
    show (match rfind_char xs c with
      | some i => some (i + 1)
      | none => if x = c then some 0 else none) = none
    rw [ih h.2]
    exact if_neg fun hx => h.1 hx.symm

/-- `rfind_char` locates the separator after the `bc` prefix when the data
part contains no `1`. -/
theorem rfind_char_bc1 (tail : List Char) (h : '1' ∉ tail) :
    rfind_char ('b' :: 'c' :: '1' :: tail) '1' = some 2 := by
  have h0 : rfind_char tail '1' = none := rfind_char_none '1' tail h
  have h1 : rfind_char ('1' :: tail) '1' = some 0 := by
    show (match rfind_char tail '1' with
      | some i => some (i + 1)
      | none => if '1' = '1' then some 0 else none) = some 0
    rw [h0]
    exact if_pos rfl
  have h2 : rfind_char ('c' :: '1' :: tail) '1' = some 1 := by
    show (match rfind_char ('1' :: tail) '1' with
      | some i => some (i + 1)
      | none => if 'c' = '1' then some 0 else none) = some 1
    rw [h1]
  show (match rfind_char ('c' :: '1' :: tail) '1' with
    | some i => some (i + 1)
    | none => if 'b' = '1' then some 0 else none) = some 2
  rw [h2]

/-- Rendering in-range groups yields a lowercase-fixed string. -/
theorem map_toLower_charset (l : List ℕ) (hl : ∀ v ∈ l, v < 32) :
    (l.map fun d => bech32_charset.getD d ' ').map Char.toLower =
      l.map fun d => bech32_charset.getD d ' ' := by
  rw [List.map_map]
  refine List.map_congr_left ?_
  intro d hd
  exact charset_lower d (hl d hd)

/-- Decoding characters back through `indexOf` recovers the groups. -/
theorem map_indexOf_charset (l : List ℕ) (hl : ∀ v ∈ l, v < 32) :
    ((l.map fun d => bech32_charset.getD d ' ').map
      fun x => bech32_charset.indexOf x) = l := by
  rw [List.map_map]
  have h : ∀ d ∈ l, ((fun x => bech32_charset.indexOf x) ∘
      fun d => bech32_charset.getD d ' ') d = id d := by
    intro d hd
    exact charset_index d (hl d hd)
  rw [List.map_congr_left h, List.map_id]

/-- Rendered groups all pass `bech32_decode`'s alphabet check. -/
theorem all_mem_charset (l : List ℕ) (hl : ∀ v ∈ l, v < 32) :
    (l.map fun d => bech32_charset.getD d ' ').all
      (fun x => decide (x ∈ bech32_charset)) = true := by
  rw [List.all_eq_true]
  intro x hx
  obtain ⟨d, hd, rfl⟩ := List.mem_map.mp hx
  exact decide_eq_true (charset_mem d (hl d hd))

/-- Rendered groups contain no `1` separator. -/
theorem one_not_mem_map_charset (l : List ℕ) (hl : ∀ v ∈ l, v < 32) :
    '1' ∉ l.map fun d => bech32_charset.getD d ' ' := by
  intro hmem
  obtain ⟨d, hd, heq⟩ := List.mem_map.mp hmem
  exact charset_ne_one d (hl d hd) heq

/-- Every checksum value produced by `bech32_create_checksum` is a valid
five-bit group. -/
theorem bech32_create_checksum_lt (hrp : List Char) (data : List ℕ) :
    ∀ v ∈ bech32_create_checksum hrp data, v < 32 := by
  intro v hv
  simp only [bech32_create_checksum, List.mem_map] at hv
  obtain ⟨i, _, rfl⟩ := hv
  exact Nat.lt_succ_of_le Nat.and_le_right

/-- `bech32_decode` on a well-formed `bc1`-address renders the payload back
and strips the six checksum groups. -/
theorem bech32_decode_encoded (payload : List ℕ) (h32 : ∀ v ∈ payload, v < 32)
    (hplen : payload.length = 39)
    (hver : bech32_verify_checksum ['b', 'c'] payload = true) :
    bech32_decode ('b' :: 'c' :: '1' :: (payload.map fun d =>
      bech32_charset.getD d ' ')) = some (['b', 'c'], payload.take 33) := by
  have hlb : Char.toLower 'b' = 'b' := by decide
  have hlc : Char.toLower 'c' = 'c' := by decide
  have hl1 : Char.toLower '1' = '1' := by decide
  have hlow : ('b' :: 'c' :: '1' :: (payload.map fun d =>
      bech32_charset.getD d ' ')).map Char.toLower =
      'b' :: 'c' :: '1' :: (payload.map fun d => bech32_charset.getD d ' ') := by
    simp only [List.map_cons, hlb, hlc, hl1, map_toLower_charset payload h32]
  have hrfind : rfind_char ('b' :: 'c' :: '1' :: (payload.map fun d =>
      bech32_charset.getD d ' ')) '1' = some 2 :=
    rfind_char_bc1 _ (one_not_mem_map_charset payload h32)
  have hlen42 : ('b' :: 'c' :: '1' :: (payload.map fun d =>
      bech32_charset.getD d ' ')).length = 42 := by
    simp [hplen]
  have hdrop : (('b' :: 'c' :: '1' :: (payload.map fun d =>
      bech32_charset.getD d ' ')).drop (2 + 1)) =
      payload.map fun d => bech32_charset.getD d ' ' := rfl
  have htak : (('b' :: 'c' :: '1' :: (payload.map fun d =>
      bech32_charset.getD d ' ')).take 2) = ['b', 'c'] := rfl
  simp only [bech32_decode, hlow, hrfind]
  rw [if_neg (fun hand => hand.1 rfl)]
  rw [if_neg (show ¬((2 : ℕ) < 1 ∨ 2 + 7 > ('b' :: 'c' :: '1' ::
    (payload.map fun d => bech32_charset.getD d ' ')).length ∨
    ('b' :: 'c' :: '1' :: (payload.map fun d =>
      bech32_charset.getD d ' ')).length > 90) from by
    rw [hlen42]
    norm_num)]
  rw [if_neg (not_not_intro (show (('b' :: 'c' :: '1' ::
    (payload.map fun d => bech32_charset.getD d ' ')).drop (2 + 1)).all
      (fun x => decide (x ∈ bech32_charset)) = true from by
    rw [hdrop]
    exact all_mem_charset payload h32))]
  rw [htak, hdrop, map_indexOf_charset payload h32, if_pos hver, hplen]

/-- C9: Encode/decode round trip. For every public key whose HASH160 witness
program is 20 in-range bytes, `public_key_to_bech32_address` produces an
address; `decode_bech32_address` on that address returns exactly the witness
program that was encoded; the created checksum verifies under
`bech32_verify_checksum`; and derivation is stable: any address derived from
the same key equals this one. -/
theorem public_key_to_bech32_address_roundtrip (hash160 : List ℕ → List ℕ)
    (pk : List ℕ) (h20 : (hash160 pk).length = 20)
    (hb : ∀ v ∈ hash160 pk, v < 256) :
    ∃ addr, public_key_to_bech32_address hash160 pk = some addr ∧
      decode_bech32_address addr = some (hash160 pk) ∧
      (∃ five_bit, convertbits (hash160 pk) 8 5 true = some five_bit ∧
        bech32_verify_checksum ['b', 'c'] ((0 :: five_bit) ++
          bech32_create_checksum ['b', 'c'] (0 :: five_bit)) = true) ∧
      (∀ addr2, public_key_to_bech32_address hash160 pk = some addr2 →
        addr2 = addr) := by
  obtain ⟨five, h85, hflen, hf32, h58⟩ := convertbits_roundtrip (hash160 pk) h20 hb
  have hd0 : ∀ v ∈ (0 :: five : List ℕ), v < 32 := by
    intro v hv
    rcases List.mem_cons.mp hv with rfl | hv
    · norm_num
    · exact hf32 v hv
  have hver : bech32_verify_checksum ['b', 'c'] ((0 :: five) ++
      bech32_create_checksum ['b', 'c'] (0 :: five)) = true :=
    bech32_create_checksum_verify ['b', 'c'] (0 :: five) hd0
  have hp32 : ∀ v ∈ (0 :: five) ++ bech32_create_checksum ['b', 'c'] (0 :: five),
      v < 32 := by
    intro v hv
    rcases List.mem_append.mp hv with hv | hv
    · exact hd0 v hv
    · exact bech32_create_checksum_lt ['b', 'c'] (0 :: five) v hv
  have hplen : ((0 :: five) ++
      bech32_create_checksum ['b', 'c'] (0 :: five)).length = 39 := by
    simp [bech32_create_checksum, hflen]
  have henc : public_key_to_bech32_address hash160 pk =
      some ('b' :: 'c' :: '1' :: (((0 :: five) ++
        bech32_create_checksum ['b', 'c'] (0 :: five)).map fun d =>
        bech32_charset.getD d ' ')) := by
    simp only [public_key_to_bech32_address, h85]
    rfl
  have hdec := bech32_decode_encoded ((0 :: five) ++
      bech32_create_checksum ['b', 'c'] (0 :: five)) hp32 hplen hver
  have htake33 : ((0 :: five) ++
      bech32_create_checksum ['b', 'c'] (0 :: five)).take 33 = 0 :: five := by
    have hl : (0 :: five : List ℕ).length = 33 := by simp [hflen]
    rw [← hl]
    exact List.take_left _ _
  have hdecaddr : decode_bech32_address ('b' :: 'c' :: '1' :: (((0 :: five) ++
      bech32_create_checksum ['b', 'c'] (0 :: five)).map fun d =>
      bech32_charset.getD d ' ')) = some (hash160 pk) := by
    simp only [decode_bech32_address, hdec, htake33, List.drop_succ_cons,
      List.drop_zero, h58, h20, List.headD_cons]
    norm_num
  refine ⟨_, henc, hdecaddr, ⟨five, h85, hver⟩, ?_⟩
  intro addr2 h2
  rw [henc] at h2
  exact (Option.some.inj h2).symm

/-- Witness for the C9 round trip at a concrete key whose HASH160 is the
20-byte program `[0, 1, ..., 19]`. -/
theorem public_key_to_bech32_address_roundtrip_witness :
    ∃ addr, public_key_to_bech32_address (fun _ => List.range 20) [] =
        some addr ∧
      decode_bech32_address addr =
        some ((fun (_ : List ℕ) => List.range 20) []) ∧
      (∃ five_bit, convertbits ((fun (_ : List ℕ) => List.range 20) []) 8 5
          true = some five_bit ∧
        bech32_verify_checksum ['b', 'c'] ((0 :: five_bit) ++
          bech32_create_checksum ['b', 'c'] (0 :: five_bit)) = true) ∧
      (∀ addr2, public_key_to_bech32_address (fun _ => List.range 20) [] =
          some addr2 → addr2 = addr) :=
  public_key_to_bech32_address_roundtrip (fun _ => List.range 20) []
    (by simp) (by decide)

end SafeSwap

